import Mathlib

/-!
Verification of core algorithms of a Buck-style target-impact analyzer
(btd). Rust strings are modelled as `List Char`; Rust `Option`-returning
(fallible) operations return `Option`. Each definition is translated from
the corresponding Rust function; definitions whose Rust source is not part
of the vendored sources are explicitly marked as modelled from the spec.
-/

set_option maxHeartbeats 1000000

/-- Rust `str` is modelled as a list of characters. -/
abbrev Str := List Char

/-- `hasPre p s` is Rust `s.starts_with(p)`. -/
def hasPre : Str → Str → Bool
  | [], _ => true
  | _ :: _, [] => false
  | p :: ps, c :: cs => p == c && hasPre ps cs

/-- Rust `s.strip_prefix(p)`: `some` of the remainder when `p` leads `s`. -/
def dropPre (p s : Str) : Option Str :=
  if hasPre p s then some (s.drop p.length) else none

/-- Rust `s.ends_with(c)` for a single character `c`. -/
def endsWithChar (c : Char) (s : Str) : Bool :=
  s.reverse.head? == some c

/-- Rust `s.strip_suffix(suf)` via the reversed lists. -/
def stripSuf (suf s : Str) : Option Str :=
  (dropPre suf.reverse s.reverse).map List.reverse

/-- Rust `s.strip_suffix(c)` for a single character. -/
def stripSufChar (c : Char) (s : Str) : Option Str :=
  stripSuf [c] s

/-- Rust `s.split_once(c)`: split at the first occurrence of `c`. -/
def splitOnceChar (c : Char) : Str → Option (Str × Str)
  | [] => none
  | x :: xs =>
    if x = c then some ([], xs)
    else (splitOnceChar c xs).map (fun p => (x :: p.1, p.2))

/-- Rust `s.rsplit_once(c)`: split at the last occurrence of `c`. -/
def rsplitOnceChar (c : Char) (s : Str) : Option (Str × Str) :=
  (splitOnceChar c s.reverse).map (fun p => (p.2.reverse, p.1.reverse))

/-- Rust `s.split_once(pat)` for a multi-character pattern. -/
def splitOnceStr (pat : Str) : Str → Option (Str × Str)
  | [] => none
  | x :: xs =>
    if hasPre pat (x :: xs) then some ([], (x :: xs).drop pat.length)
    else (splitOnceStr pat xs).map (fun p => (x :: p.1, p.2))

/-- Rust `s.contains(pat)`: substring containment. -/
def containsStr (pat : Str) : Str → Bool
  | [] => hasPre pat []
  | x :: xs => hasPre pat (x :: xs) || containsStr pat xs

/-- First character of a `Str`, used for Rust `rest.starts_with(':')`. -/
def headIs (c : Char) (s : Str) : Bool :=
  s.head? == some c

/- Basic lemmas about the string primitives. -/

theorem hasPre_append (p r : Str) : hasPre p (p ++ r) = true := by
  induction p with
  | nil => rfl
  | cons c cs ih => simp [hasPre, ih]

theorem hasPre_iff (p s : Str) : hasPre p s = true ↔ ∃ r, s = p ++ r := by
  constructor
  · intro h
    induction p generalizing s with
    | nil => exact ⟨s, rfl⟩
    | cons c cs ih =>
      cases s with
      | nil => simp [hasPre] at h
      | cons x xs =>
        simp only [hasPre, Bool.and_eq_true, beq_iff_eq] at h
        obtain ⟨rfl, h2⟩ := h
        obtain ⟨r, rfl⟩ := ih xs h2
        exact ⟨r, rfl⟩
  · rintro ⟨r, rfl⟩
    exact hasPre_append p r

theorem dropPre_append (p r : Str) : dropPre p (p ++ r) = some r := by
  simp [dropPre, hasPre_append]

theorem dropPre_eq_some (p s r : Str) (h : dropPre p s = some r) :
    s = p ++ r := by
  unfold dropPre at h
  by_cases hp : hasPre p s = true
  · simp only [hp, if_true, Option.some.injEq] at h
    obtain ⟨r', rfl⟩ := (hasPre_iff p s).mp hp
    subst h
    simp
  · simp [hp] at h

theorem stripSuf_append (suf a : Str) : stripSuf suf (a ++ suf) = some a := by
  simp [stripSuf, List.reverse_append, dropPre_append]

theorem stripSuf_eq_some (suf s a : Str) (h : stripSuf suf s = some a) :
    s = a ++ suf := by
  unfold stripSuf at h
  cases hd : dropPre suf.reverse s.reverse with
  | none => simp [hd] at h
  | some r =>
    have ha : a = r.reverse := by
      have := h
      simp only [hd] at this
      simpa using this.symm
    subst ha
    have h1 := dropPre_eq_some _ _ _ hd
    have h2 : s.reverse.reverse = (suf.reverse ++ r).reverse := by rw [h1]
    simpa using h2

theorem endsWithChar_append (c : Char) (a : Str) :
    endsWithChar c (a ++ [c]) = true := by
  simp [endsWithChar]

theorem endsWithChar_iff (c : Char) (s : Str) :
    endsWithChar c s = true ↔ ∃ a, s = a ++ [c] := by
  constructor
  · intro h
    unfold endsWithChar at h
    cases hs : s.reverse with
    | nil => simp [hs] at h
    | cons x xs =>
      simp only [hs, List.head?_cons, beq_iff_eq, Option.some.injEq] at h
      refine ⟨xs.reverse, ?_⟩
      have h2 : s.reverse.reverse = (x :: xs).reverse := by rw [hs]
      rw [h] at h2
      simpa using h2
  · rintro ⟨a, rfl⟩
    exact endsWithChar_append c a

/- Buck value types (src/btd/src/buck/types.rs). All are strings. -/

/-- Example `fbcode//buck2:buck2` (types.rs, `TargetLabel`). -/
abbrev TargetLabel := Str

/-- Example `fbcode//buck2:` or `fbcode//buck2/...` (types.rs, `TargetPattern`). -/
abbrev TargetPattern := Str

/-- Example `fbcode//buck2/TARGETS` (types.rs, `CellPath`). -/
abbrev CellPath := Str

/-- Example `fbcode//buck2` (types.rs, `Package`). -/
abbrev Package := Str

/-- The `buck2` bit in `fbcode//build:buck2` (types.rs, `TargetName`). -/
abbrev TargetName := Str

/-- Example `prelude//rules.bzl:genrule` (types.rs, `RuleType`). -/
abbrev RuleType := Str

/-- POSIX path relative to the repository root (types.rs). -/
abbrev ProjectRelativePath := Str

/-- A bare cell identifier such as `fbcode` (types.rs, `CellName`). -/
abbrev CellName := Str

/-- Slash-separated path with no leading `/` (types.rs, `CellRelativePath`). -/
abbrev CellRelativePath := Str

/-- Raw glob pattern string (types.rs, `Glob`). -/
abbrev Glob := Str

/-- `TargetLabel::package`: text before the last `:`. The Rust code
unwraps; we return `none` where the Rust code would panic (no `:`). -/
def TargetLabel.packageOpt (l : TargetLabel) : Option Package :=
  (rsplitOnceChar ':' l).map Prod.fst

/-- `TargetLabel::key`: the `(Package, TargetName)` pair, split at the
last `:`; `none` where the Rust code would panic. -/
def TargetLabel.keyOpt (l : TargetLabel) : Option (Package × TargetName) :=
  rsplitOnceChar ':' l

/-- `TargetPattern::matches` (types.rs lines 188-204), translated branch
by branch: a pattern ending in `:` matches by prefix; a pattern ending in
`/...` matches when the stripped prefix leads the label and the next
character is `:` or `/`; any other pattern matches only the identical
string. -/
def TargetPattern.matches (pat : TargetPattern) (target : Str) : Bool :=
  if endsWithChar ':' pat then hasPre pat target
  else
    match stripSuf "/...".data pat with
    | some pre =>
      match dropPre pre target with
      | some rest => headIs ':' rest || headIs '/' rest
      | none => false
    | none => pat == target

/-- `TargetPattern::matches_package` (types.rs lines 222-234): a package
pattern matches the identical package; a recursive pattern matches when
the stripped prefix leads the package and the remainder is empty or
starts with `/`; all other patterns match no package. -/
def TargetPattern.matchesPackage (pat : TargetPattern) (pkg : Package) : Bool :=
  match stripSufChar ':' pat with
  | some pre => pre == pkg
  | none =>
    match stripSuf "/...".data pat with
    | some pre =>
      match dropPre pre pkg with
      | some rest => rest.isEmpty || headIs '/' rest
      | none => false
    | none => false

/- Sanity checks mirroring the doctests of types.rs. -/
example : TargetPattern.matches "foo//bar/baz:".data "foo//bar/baz:qux".data = true := by decide
example : TargetPattern.matches "foo//bar/baz:".data "foo//bar/baz/boo:qux".data = false := by decide
example : TargetPattern.matches "foo//...".data "foo//bar/baz:qux".data = true := by decide
example : TargetPattern.matches "foo//...".data "foo//:qux".data = true := by decide
example : TargetPattern.matches "foo//bar/...".data "foo//bar:qux".data = true := by decide
example : TargetPattern.matches "foo//bar/...".data "foo//bard/baz:qux".data = false := by decide
example : TargetPattern.matches "foo//bar/...".data "foo//moo/bar/baz:qux".data = false := by decide
example : TargetPattern.matches "foo//bar/a:literal".data "foo//bar/a:literal".data = true := by decide
example : TargetPattern.matches "foo//bar/a:literal".data "foo//bar/a:nother".data = false := by decide
example : TargetPattern.matchesPackage "foo//bar:".data "foo//bar".data = true := by decide
example : TargetPattern.matchesPackage "foo//bar:".data "foo//bard".data = false := by decide
example : TargetPattern.matchesPackage "foo//bar/...".data "foo//bar".data = true := by decide
example : TargetPattern.matchesPackage "foo//bar/...".data "foo//bar/baz".data = true := by decide
example : TargetPattern.matchesPackage "foo//bar/...".data "foo//bard".data = false := by decide
example : TargetPattern.matchesPackage "foo//...".data "foo//".data = true := by decide

/-- `CellPath::cell` (types.rs): text before the first `//`; `none` where
the Rust code would panic (no `//`). -/
def CellPath.cellOpt (p : CellPath) : Option CellName :=
  (splitOnceStr "//".data p).map Prod.fst

/-- `CellPath::path` (types.rs): text after the first `//`; `none` where
the Rust code would panic. -/
def CellPath.pathOpt (p : CellPath) : Option CellRelativePath :=
  (splitOnceStr "//".data p).map Prod.snd

/-- `CellName::join` (types.rs): `format!("{cell}//{path}")`. -/
def CellName.join (c : CellName) (path : CellRelativePath) : CellPath :=
  c ++ "//".data ++ path

/-- `ProjectRelativePath::join` (types.rs): the path itself when empty,
otherwise `self/suffix`. -/
def ProjectRelativePath.join (p suffix : Str) : Str :=
  if p.isEmpty then suffix else p ++ '/' :: suffix

/-- `CellPath::extension` (types.rs): split at the last `/`
(`unwrap_or_default` yields the empty file name), then take the text
after the last `.` of the file name. -/
def CellPath.extension (p : CellPath) : Option Str :=
  let fname := match rsplitOnceChar '/' p with
    | some q => q.2
    | none => []
  (rsplitOnceChar '.' fname).map Prod.snd

/-- Per-cell data (cells.rs `CellData`): project-relative path and the
build file names for the cell. -/
structure CellData where
  path : ProjectRelativePath
  build_files : List Str
deriving DecidableEq

/-- `CellInfo` (cells.rs): cell map (modelled as an association list)
plus the same paths sorted with the longest first. -/
structure CellInfo where
  cells : List (CellName × CellData)
  paths : List (CellName × ProjectRelativePath)
deriving DecidableEq

/-- Association-list lookup, modelling `HashMap::get`. -/
def lookupAssoc {α : Type} (m : List (CellName × α)) (k : CellName) : Option α :=
  (m.find? (fun e => e.1 == k)).map Prod.snd

/-- `CellInfo::resolve` (cells.rs lines 141-146): look up the cell's
prefix and join the relative portion; `none` for an unknown cell. -/
def CellInfo.resolve (info : CellInfo) (p : CellPath) : Option ProjectRelativePath :=
  match CellPath.cellOpt p, CellPath.pathOpt p with
  | some c, some rel =>
    (lookupAssoc info.cells c).map (fun d => ProjectRelativePath.join d.path rel)
  | _, _ => none

/-- The loop body of `CellInfo::unresolve` (cells.rs lines 148-159): walk
the longest-first path table and return the first cell whose
project-relative path is a prefix; strip one optional leading `/` from
the remainder. -/
def unresolveGo (path : ProjectRelativePath) :
    List (CellName × ProjectRelativePath) → Option CellPath
  | [] => none
  | (cell, pre) :: rest =>
    match dropPre pre path with
    | some x =>
      let x2 := match dropPre ['/'] x with
        | some y => y
        | none => x
      some (CellName.join cell x2)
    | none => unresolveGo path rest

/-- `CellInfo::unresolve` (cells.rs lines 148-159). -/
def CellInfo.unresolve (info : CellInfo) (path : ProjectRelativePath) : Option CellPath :=
  unresolveGo path info.paths

/-- Change status of one path (sapling/status.rs `Status`). -/
inductive Status (α : Type) where
  | added (x : α)
  | modified (x : α)
  | removed (x : α)
deriving DecidableEq

/-- `Status::get`: the payload regardless of status. -/
def Status.get {α : Type} : Status α → α
  | .added x => x
  | .modified x => x
  | .removed x => x

/-- `Changes` (changes.rs): parallel lists of cell paths and project
paths; the `cell_paths_set` of the Rust code is a membership index over
`cell_paths` and is modelled by list membership. -/
structure Changes where
  cell_paths : List (Status CellPath)
  project_paths : List (Status ProjectRelativePath)
deriving DecidableEq

/-- `Changes::cell_paths` iterator: the payloads. -/
def Changes.cellPathsList (ch : Changes) : List CellPath :=
  ch.cell_paths.map Status.get

/-- `Changes::project_paths` iterator: the payloads. -/
def Changes.projectPathsList (ch : Changes) : List ProjectRelativePath :=
  ch.project_paths.map Status.get

/-- `Changes::contains_cell_path`: membership in the cell-path set. -/
def Changes.containsCellPath (ch : Changes) (p : CellPath) : Bool :=
  ch.cell_paths.any (fun s => s.get == p)

/-- `Changes::contains_package`: membership of the package's directory
(`Package::as_cell_path` reuses the same bytes). -/
def Changes.containsPackage (ch : Changes) (pkg : Package) : Bool :=
  Changes.containsCellPath ch pkg

/-- `Changes::is_empty` (changes.rs): tests `cell_paths`. -/
def Changes.isEmptyChanges (ch : Changes) : Bool :=
  ch.cell_paths.isEmpty

/-- `is_buckconfig` (rerun.rs lines 31-45): extension `.bcfg` or
`.buckconfig`, or the text contains `/mode/` or `/buckconfigs/`. -/
def is_buckconfig (p : CellPath) : Bool :=
  CellPath.extension p == some "bcfg".data
    || CellPath.extension p == some "buckconfig".data
    || containsStr "/mode/".data p
    || containsStr "/buckconfigs/".data p

/-- `is_buck_deployment` (buck/config.rs lines 25-27). -/
def is_buck_deployment (p : CellPath) : Bool :=
  hasPre "fbsource//tools/buck2-versions/".data p

/-- `invalidates_graph` (rerun.rs lines 47-49). -/
def invalidates_graph (p : CellPath) : Bool :=
  is_buckconfig p || is_buck_deployment p

/-- The `Everything` decision of `rerun` (rerun.rs lines 57-59): `rerun`
returns `None` — meaning the whole graph must be re-read — exactly when
some changed cell path invalidates the graph; every other control path
of `rerun` returns `Some`. -/
def rerun_returns_everything (changes : Changes) : Bool :=
  (Changes.cellPathsList changes).any invalidates_graph

/-- The buckconfig predicate exactly as the claim states it: extension
`.bcfg` or `.buckconfig`, or text containing `/mode/` or
`/buckconfigs/`, and false for every path under `buck2/tests`. -/
def claimBuckconfigC4 (p : CellPath) : Bool :=
  (CellPath.extension p == some "bcfg".data
    || CellPath.extension p == some "buckconfig".data
    || containsStr "/mode/".data p
    || containsStr "/buckconfigs/".data p)
  && !(containsStr "buck2/tests".data p)

/-- The buckconfig predicate of the amended claim: as above but with no
`buck2/tests` exception (matching rerun.rs, which never consults one). -/
def claimBuckconfigAmendedC4 (p : CellPath) : Bool :=
  CellPath.extension p == some "bcfg".data
    || CellPath.extension p == some "buckconfig".data
    || containsStr "/mode/".data p
    || containsStr "/buckconfigs/".data p

/-- Rust `s.ends_with(suf)` for a string suffix. -/
def hasSuf (suf s : Str) : Bool :=
  hasPre suf.reverse s.reverse

/-- `RuleType::short` (types.rs): text after the last `:`, or the whole
string when there is none. -/
def RuleType.short (rt : RuleType) : Str :=
  match rsplitOnceChar ':' rt with
  | none => rt
  | some q => q.2

/-- `RuleType::file` (types.rs): text before the last `:`, or the whole
string when there is none. -/
def RuleType.file (rt : RuleType) : CellPath :=
  match rsplitOnceChar ':' rt with
  | none => rt
  | some q => q.1

/-- `CellPath::is_prelude_bzl_file` (types.rs): starts with `prelude//`
and ends with `.bzl`. -/
def CellPath.isPreludeBzlFile (p : CellPath) : Bool :=
  hasPre "prelude//".data p && hasSuf ".bzl".data p

/-- `PackageValues` (types.rs): `citadel.labels` plus arbitrary JSON
modifiers, represented here by their serialized text (only equality of
the JSON value is ever used). -/
structure PackageValues where
  labels : List Str
  cfg_modifiers : Str
deriving DecidableEq

/-- `BuckTarget` (targets.rs of the graph container, declared by the
spec's data model; the container source is not under src/): one target
node of the graph. -/
structure BuckTarget where
  name : TargetName
  package : Package
  package_values : PackageValues
  rule_type : RuleType
  oncall : Option Str
  deps : List TargetLabel
  inputs : List CellPath
  hash : Str
  labels : List Str
  ci_srcs : List Glob
  ci_deps : List TargetPattern
deriving DecidableEq

/-- `BuckTarget::label`: `Package::join` produces `package:name`. -/
def BuckTarget.label (t : BuckTarget) : TargetLabel :=
  t.package ++ ':' :: t.name

/-- Modelled from the spec: `BuckTarget::label_key` (targets.rs, not
under src/); §3 gives the key of a label as its `(Package, TargetName)`
pair. -/
def BuckTarget.labelKey (t : BuckTarget) : Package × TargetName :=
  (t.package, t.name)

/-- `BuckImport` (spec §3): a buildfile or `.bzl` file together with its
imports and optional owning package. -/
structure BuckImport where
  file : CellPath
  imports : List CellPath
  package : Option Package
deriving DecidableEq

/-- `BuckError` (spec §3): a package whose evaluation failed. -/
structure BuckError where
  package : Package
  error : Str
deriving DecidableEq

/-- One entry of a target dump (spec §3, `Targets` container). -/
inductive TargetsEntry where
  | target (t : BuckTarget)
  | imp (i : BuckImport)
  | err (e : BuckError)
deriving DecidableEq

/-- Modelled from the spec: the `Targets` container (targets.rs, not
under src/) is a sequence of entries. -/
abbrev Targets := List TargetsEntry

/-- `Targets::targets`: the target entries in order. -/
def Targets.targetsOf (ts : Targets) : List BuckTarget :=
  ts.filterMap (fun e => match e with | .target t => some t | _ => none)

/-- `Targets::imports`: the import entries in order. -/
def Targets.importsOf (ts : Targets) : List BuckImport :=
  ts.filterMap (fun e => match e with | .imp i => some i | _ => none)

/-- `Targets::errors`: the error entries in order. -/
def Targets.errorsOf (ts : Targets) : List BuckError :=
  ts.filterMap (fun e => match e with | .err e0 => some e0 | _ => none)

/-- Modelled from the spec: `Targets::targets_by_label_key` (targets.rs,
not under src/) builds a hash index keyed by `label_key`, inserting each
target in order so a later duplicate overwrites an earlier one; lookup
therefore returns the last target with the key. -/
def Targets.targetsByLabelKey (ts : Targets) (k : Package × TargetName) :
    Option BuckTarget :=
  (Targets.targetsOf ts).reverse.find? (fun t => BuckTarget.labelKey t == k)

/-- The imports retained by `changed_bzl_files` (diff.rs lines 38-50):
prelude `.bzl` files are skipped unless prelude changes are tracked. -/
def importsFiltered (state : Targets) (track : Bool) : List BuckImport :=
  (Targets.importsOf state).filter
    (fun i => track || !(CellPath.isPreludeBzlFile i.file))

/-- The reverse import map of `changed_bzl_files` (diff.rs lines 47-49):
all files among `imps` that import `y`. -/
def bzlRdeps (imps : List BuckImport) (y : CellPath) : List CellPath :=
  (imps.filter (fun i => i.imports.contains y)).map BuckImport.file

/-- Insert the members of `rs` not already in `acc`, returning the new
members and the extended set (the `res.insert` loop of diff.rs line 56). -/
def bzlInsertNew (acc : List CellPath) : List CellPath → List CellPath × List CellPath
  | [] => ([], acc)
  | r :: rs =>
    if acc.contains r then bzlInsertNew acc rs
    else
      let (new, acc2) := bzlInsertNew (acc ++ [r]) rs
      (r :: new, acc2)

/-- The worklist loop of `changed_bzl_files` (diff.rs lines 53-61),
with explicit fuel; the fuel passed by `changed_bzl_files` dominates the
number of pops the Rust loop can perform. -/
def bzlClosureGo (rdepsF : CellPath → List CellPath) :
    Nat → List CellPath → List CellPath → List CellPath
  | 0, _, acc => acc
  | _ + 1, [], acc => acc
  | fuel + 1, x :: rest, acc =>
    let (new, acc2) := bzlInsertNew acc (rdepsF x)
    bzlClosureGo rdepsF fuel (rest ++ new) acc2

/-- `changed_bzl_files` (diff.rs lines 31-64): the `.bzl` files changed
directly or via transitive reverse imports. -/
def changed_bzl_files (state : Targets) (changes : Changes) (track : Bool) :
    List CellPath :=
  let imps := importsFiltered state track
  let todo := (imps.filter
    (fun i => Changes.containsCellPath changes i.file)).map BuckImport.file
  bzlClosureGo (bzlRdeps imps) (todo.length + imps.length + 1) todo todo

/-- `is_changed_ci_srcs` (diff.rs lines 66-72), parameterized by the
matcher `gm` of the external glob crate wrapped by buck/glob.rs. -/
def is_changed_ci_srcs (gm : List Glob → ProjectRelativePath → Bool)
    (file_deps : List Glob) (changes : Changes) : Bool :=
  if file_deps.isEmpty || Changes.isEmptyChanges changes then false
  else (Changes.projectPathsList changes).any (fun x => gm file_deps x)

/-- `GraphImpact` (diff.rs lines 75-83). -/
structure GraphImpact where
  recursive : List BuckTarget
  non_recursive : List BuckTarget
deriving DecidableEq

/-- Byte-lexicographic order on strings, as Rust `Ord` for `str`. -/
def leStr : Str → Str → Bool
  | [], _ => true
  | _ :: _, [] => false
  | a :: s1, b :: s2 =>
    if a.toNat < b.toNat then true
    else if a.toNat = b.toNat then leStr s1 s2
    else false

/-- Lexicographic order on `(Package, TargetName)` keys, as the derived
Rust `Ord` on the pair. -/
def leKey (a b : Package × TargetName) : Bool :=
  if a.1 = b.1 then leStr a.2 b.2 else leStr a.1 b.1

/-- Stable insertion into a key-sorted list: the new element goes after
every element whose key is less than or equal to its own. -/
def insertByKey (x : BuckTarget) : List BuckTarget → List BuckTarget
  | [] => [x]
  | y :: ys =>
    if leKey (BuckTarget.labelKey y) (BuckTarget.labelKey x)
    then y :: insertByKey x ys
    else x :: y :: ys

/-- `sort_by_key(label_key)` (diff.rs lines 142-143 and 234): a stable
sort by the label key, modelled as stable insertion sort. -/
def sortByLabelKey (ts : List BuckTarget) : List BuckTarget :=
  ts.foldl (fun acc t => insertByKey t acc) []

/-- The recursive-change condition of `immediate_target_changes`
(diff.rs lines 112-134): package touch, hash change or new target, input
change, ci_srcs change, or rule change. -/
def changeCondRec (gm : List Glob → ProjectRelativePath → Bool)
    (base : Targets) (changes : Changes) (bzl : List CellPath)
    (t : BuckTarget) : Bool :=
  Changes.containsPackage changes t.package
  || (match Targets.targetsByLabelKey base (BuckTarget.labelKey t) with
      | none => true
      | some o => !(o.hash == t.hash))
  || t.inputs.any (fun i => Changes.containsCellPath changes i)
  || is_changed_ci_srcs gm t.ci_srcs changes
  || (!bzl.isEmpty && bzl.contains (RuleType.file t.rule_type))

/-- The package-values condition of `immediate_target_changes` (diff.rs
lines 123-126). -/
def changeCondPV (base : Targets) (t : BuckTarget) : Bool :=
  match Targets.targetsByLabelKey base (BuckTarget.labelKey t) with
  | none => true
  | some o => !(o.package_values == t.package_values)

/-- `immediate_target_changes` (diff.rs lines 98-145): classify each diff
target, then sort both result lists by label key.  (The Rust loop pushes
in diff order and sorts afterwards; filtering preserves that order.) -/
def immediate_target_changes (gm : List Glob → ProjectRelativePath → Bool)
    (base diff : Targets) (changes : Changes) (track : Bool) : GraphImpact :=
  let bzl := changed_bzl_files diff changes track
  let recs := (Targets.targetsOf diff).filter (changeCondRec gm base changes bzl)
  let nonrecs := (Targets.targetsOf diff).filter
    (fun t => !(changeCondRec gm base changes bzl t) && changeCondPV base t)
  ⟨sortByLabelKey recs, sortByLabelKey nonrecs⟩

/-- The recursive-change condition exactly as the claim C1 states it, as
a plain disjunction with no short-circuit guards. -/
def claimCondRecC1 (gm : List Glob → ProjectRelativePath → Bool)
    (base diff : Targets) (changes : Changes) (track : Bool)
    (t : BuckTarget) : Bool :=
  Changes.containsPackage changes t.package
  || (match Targets.targetsByLabelKey base (BuckTarget.labelKey t) with
      | none => true
      | some o => !(o.hash == t.hash))
  || t.inputs.any (fun i => Changes.containsCellPath changes i)
  || (Changes.projectPathsList changes).any (fun p => gm t.ci_srcs p)
  || (changed_bzl_files diff changes track).contains (RuleType.file t.rule_type)

/-- One key of the reverse-edge index: an exact label, or a `ci_deps`
pattern. -/
inductive RdepKey where
  | lbl (l : TargetLabel)
  | pat (p : TargetPattern)
deriving DecidableEq

/-- Modelled from the spec: `TargetMap` (target_map.rs, not under src/);
§4.H requires that `get` return every target inserted under the exact
label together with every target inserted under a `ci_deps` pattern that
matches the label. -/
structure TargetMap where
  entries : List (RdepKey × BuckTarget)
deriving DecidableEq

/-- `TargetMap::insert`: a reverse edge keyed by an exact label. -/
def TargetMap.insertLbl (m : TargetMap) (d : TargetLabel) (t : BuckTarget) : TargetMap :=
  ⟨m.entries ++ [(.lbl d, t)]⟩

/-- `TargetMap::insert_pattern`: a reverse edge keyed by a pattern. -/
def TargetMap.insertPat (m : TargetMap) (d : TargetPattern) (t : BuckTarget) : TargetMap :=
  ⟨m.entries ++ [(.pat d, t)]⟩

/-- `TargetMap::get`: all targets whose key is the label or whose pattern
matches it. -/
def TargetMap.get (m : TargetMap) (l : TargetLabel) : List BuckTarget :=
  m.entries.filterMap (fun e => match e.1 with
    | .lbl d => if d == l then some e.2 else none
    | .pat p => if TargetPattern.matches p l then some e.2 else none)

/-- `hint_applies_to` (diff.rs lines 147-154): a hint target named
`ci_hint@X` applies to the target `X` of the same package. -/
def hint_applies_to (t : BuckTarget) : Option (Package × TargetName) :=
  (dropPre "ci_hint@".data t.name).map (fun n => (t.package, n))

/-- The pending-hints map (a `HashMap` in diff.rs line 177): insertion
overwrites an existing entry for the key. -/
def hintsInsert (hs : List ((Package × TargetName) × TargetLabel))
    (k : Package × TargetName) (v : TargetLabel) :
    List ((Package × TargetName) × TargetLabel) :=
  (hs.filter (fun e => !(e.1 == k))) ++ [(k, v)]

/-- `HashMap` lookup on the pending-hints map. -/
def hintsLookup (hs : List ((Package × TargetName) × TargetLabel))
    (k : Package × TargetName) : Option TargetLabel :=
  (hs.find? (fun e => e.1 == k)).map Prod.snd

/-- `HashMap::remove` on the pending-hints map (drop the key). -/
def hintsErase (hs : List ((Package × TargetName) × TargetLabel))
    (k : Package × TargetName) : List ((Package × TargetName) × TargetLabel) :=
  hs.filter (fun e => !(e.1 == k))

/-- One step of the first reverse-index loop of `recursive_target_changes`
(diff.rs lines 178-193): insert dep and ci_dep edges and record
`ci_hint`-typed targets. -/
def buildStep
    (acc : TargetMap × List ((Package × TargetName) × TargetLabel))
    (t : BuckTarget) :
    TargetMap × List ((Package × TargetName) × TargetLabel) :=
  let m := t.deps.foldl (fun m d => TargetMap.insertLbl m d t) acc.1
  let m := t.ci_deps.foldl (fun m d => TargetMap.insertPat m d t) m
  let hints :=
    if RuleType.short t.rule_type == "ci_hint".data then
      match hint_applies_to t with
      | some dest => hintsInsert acc.2 dest (BuckTarget.label t)
      | none => acc.2
    else acc.2
  (m, hints)

/-- The second loop of `recursive_target_changes` (diff.rs lines
196-205): the first target matching a pending hint receives the reverse
edge from the hint's label; the loop stops once no hints remain. -/
def fillHints (m : TargetMap)
    (hints : List ((Package × TargetName) × TargetLabel)) :
    List BuckTarget → TargetMap
  | [] => m
  | t :: ts =>
    if hints.isEmpty then m
    else
      match hintsLookup hints (t.package, t.name) with
      | some hl => fillHints (TargetMap.insertLbl m hl t)
          (hintsErase hints (t.package, t.name)) ts
      | none => fillHints m hints ts

/-- The reverse-edge index of `recursive_target_changes` (diff.rs lines
176-205). -/
def buildRdeps (diff : Targets) : TargetMap :=
  let p := (Targets.targetsOf diff).foldl buildStep (⟨[]⟩, [])
  fillHints p.1 p.2 (Targets.targetsOf diff)

/-- The `done` map of `recursive_target_changes` (diff.rs line 220):
label key to emitted flag, insertion overwrites. -/
def doneInsert (d : List ((Package × TargetName) × Bool))
    (k : Package × TargetName) (b : Bool) :
    List ((Package × TargetName) × Bool) :=
  (d.filter (fun e => !(e.1 == k))) ++ [(k, b)]

/-- Lookup on the `done` map. -/
def doneLookup (d : List ((Package × TargetName) × Bool))
    (k : Package × TargetName) : Option Bool :=
  (d.find? (fun e => e.1 == k)).map Prod.snd

/-- The initial `done` map (diff.rs lines 220-225): recursive seeds map
to `true`, then non-recursive seeds to `false` (later inserts win). -/
def initDone (changes : GraphImpact) : List ((Package × TargetName) × Bool) :=
  let d := changes.recursive.foldl
    (fun d t => doneInsert d (BuckTarget.labelKey t) true) []
  changes.non_recursive.foldl
    (fun d t => doneInsert d (BuckTarget.labelKey t) false) d

/-- One reverse dependency handled by the frontier scan (diff.rs lines
250-263): a vacant key joins `next`, a silently-seen key is promoted
into `next_silent`, and an already-emitted key is skipped. -/
def exploreStep
    (st : List BuckTarget × List BuckTarget × List ((Package × TargetName) × Bool))
    (rdep : BuckTarget) :
    List BuckTarget × List BuckTarget × List ((Package × TargetName) × Bool) :=
  match doneLookup st.2.2 (BuckTarget.labelKey rdep) with
  | none => (st.1 ++ [rdep], st.2.1,
      doneInsert st.2.2 (BuckTarget.labelKey rdep) true)
  | some false => (st.1, st.2.1 ++ [rdep],
      doneInsert st.2.2 (BuckTarget.labelKey rdep) true)
  | some true => st

/-- The body of the frontier scan for one item (diff.rs lines 248-264):
when the rule type is followed, every reverse dependency of the item's
label is handled by `exploreStep`. -/
def exploreItem (rdeps : TargetMap) (follow : RuleType → Bool)
    (st : List BuckTarget × List BuckTarget × List ((Package × TargetName) × Bool))
    (lbl : BuckTarget) :
    List BuckTarget × List BuckTarget × List ((Package × TargetName) × Bool) :=
  if follow lbl.rule_type then
    (TargetMap.get rdeps (BuckTarget.label lbl)).foldl exploreStep st
  else st

/-- The frontier scan over `todo` then `todo_silent` (diff.rs line 248). -/
def explore (rdeps : TargetMap) (follow : RuleType → Bool)
    (items : List BuckTarget) (done : List ((Package × TargetName) × Bool)) :
    List BuckTarget × List BuckTarget × List ((Package × TargetName) × Bool) :=
  items.foldl (exploreItem rdeps follow) ([], [], done)

/-- `add_result` (diff.rs lines 232-236): sort the layer and append it. -/
def addResult (results : List (List BuckTarget)) (items : List BuckTarget) :
    List (List BuckTarget) :=
  results ++ [sortByLabelKey items]

/-- `usize::MAX`, the iteration budget when `depth` is `None`. -/
def USIZE_MAX : Nat := 2 ^ 64 - 1

/-- The main loop of `recursive_target_changes` (diff.rs lines 238-282),
with one fuel unit per `for` iteration, followed by the trailing
`add_result(result, todo)`. -/
def rloop (rdeps : TargetMap) (follow : RuleType → Bool) :
    Nat → List BuckTarget → List BuckTarget →
    List ((Package × TargetName) × Bool) → List BuckTarget →
    List (List BuckTarget) → List (List BuckTarget)
  | 0, todo, _, _, _, result => addResult result todo
  | fuel + 1, todo, nonRec, done, todoSilent, result =>
    if todo.isEmpty && todoSilent.isEmpty then
      let result2 := if !nonRec.isEmpty then addResult result nonRec else result
      addResult result2 todo
    else
      let e := explore rdeps follow (todo ++ todoSilent) done
      let result2 :=
        if !nonRec.isEmpty then addResult result (nonRec ++ todo)
        else if !todo.isEmpty then addResult result todo
        else result
      let nonRec2 := if !nonRec.isEmpty then ([] : List BuckTarget) else nonRec
      rloop rdeps follow fuel e.1 nonRec2 e.2.2 e.2.1 result2

/-- `recursive_target_changes` (diff.rs lines 156-283). -/
def recursive_target_changes (diff : Targets) (changes : GraphImpact)
    (depth : Option Nat) (follow : RuleType → Bool) :
    List (List BuckTarget) :=
  if changes.recursive.isEmpty then
    let res : List (List BuckTarget) :=
      if changes.non_recursive.isEmpty then [] else [changes.non_recursive]
    (res ++ [[]]).take (depth.getD USIZE_MAX)
  else
    rloop (buildRdeps diff) follow (depth.getD USIZE_MAX) changes.recursive
      changes.non_recursive (initDone changes) [] []

/-- The reverse dependencies scanned for a list of frontier items, in
scan order: for each followed item the `get` list of its label. -/
def exploreStream (rdeps : TargetMap) (follow : RuleType → Bool)
    (items : List BuckTarget) : List BuckTarget :=
  (items.map (fun lbl =>
    if follow lbl.rule_type then TargetMap.get rdeps (BuckTarget.label lbl)
    else [])).flatten

/-- Evolution of the `done` map across a scan: a key silently seen
(`some false`) afterwards was silently seen before, and a key present
before stays present, possibly promoted to `true`. -/
def DoneLe (d d' : List ((Package × TargetName) × Bool)) : Prop :=
  (∀ k, doneLookup d' k = some false → doneLookup d k = some false)
  ∧ (∀ k v, doneLookup d k = some v →
      doneLookup d' k = some v ∨ doneLookup d' k = some true)

/-- Number of keys of `K` not yet in the `done` map. -/
def mFresh (K : List (Package × TargetName))
    (d : List ((Package × TargetName) × Bool)) : Nat :=
  (K.filter (fun k => (doneLookup d k).isNone)).length

/-- Number of silent (`false`) entries of the `done` map. -/
def mFalse (d : List ((Package × TargetName) × Bool)) : Nat :=
  (d.filter (fun e => e.2 == false)).length

/-- Termination measure of the BFS: fresh keys plus silent entries. -/
def mMeasure (K : List (Package × TargetName))
    (d : List ((Package × TargetName) × Bool)) : Nat :=
  mFresh K d + mFalse d

/-- A list of targets sorted by `label_key` (ascending, duplicates
allowed), as required of every emitted list. -/
def SortedByKey (l : List BuckTarget) : Prop :=
  List.Pairwise
    (fun a b => leKey (BuckTarget.labelKey a) (BuckTarget.labelKey b) = true) l

/-- `ValidationError` (check.rs lines 29-49). -/
inductive ValidationError where
  | packageFailed (package : Package) (error : Str)
  | preexistingPackageFailed (package : Package) (error : Str)
  | targetDeleted (deleted referenced_by : TargetLabel)
  | brokenEdge (missing referenced_by : TargetLabel)
deriving DecidableEq

/-- Modelled from the spec: the ancestor relation of the package
resolver (package_resolver.rs, not under src/); §4.I.1 makes a package
`a` an ancestor of a query `q` when `q` is `a` itself or extends `a`
with further `/`-separated components. -/
def isPkgAncestor (a q : Package) : Bool :=
  a == q || hasPre (a ++ ['/']) q

/-- Modelled from the spec: `PackageResolver` (package_resolver.rs, not
under src/); §4.I.1 describes a map from `Package` to values supporting
longest-prefix lookup, modelled as the insertion sequence. -/
structure PkgResolver where
  entries : List (Package × (Package × Str))
deriving DecidableEq

/-- `PackageResolver::insert`. -/
def PkgResolver.insert (r : PkgResolver) (p : Package) (v : Package × Str) :
    PkgResolver :=
  ⟨r.entries ++ [(p, v)]⟩

/-- Modelled from the spec: `get(q).pop()` of the package resolver —
the value stored for the deepest ancestor of `q` (the latest insert
winning among equally deep ancestors), `none` when no stored package is
an ancestor of `q`. -/
def PkgResolver.getPop (r : PkgResolver) (q : Package) :
    Option (Package × Str) :=
  ((r.entries.filter (fun e => isPkgAncestor e.1 q)).foldl
    (fun best e => match best with
      | none => some e
      | some b => if b.1.length ≤ e.1.length then some e else some b)
    none).map Prod.snd

/-- The `diff_errors` map of `check_errors` (check.rs lines 90-108): the
diff errors keyed by package (insertion overwrites), with every package
that also has a base error removed. -/
def errMapInsert (m : List (Package × Str)) (k : Package) (v : Str) :
    List (Package × Str) :=
  (m.filter (fun e => !(e.1 == k))) ++ [(k, v)]

/-- `diff_errors` after both loops of check.rs lines 90-108. -/
def diffErrsOf (base diff : Targets) : List (Package × Str) :=
  (Targets.errorsOf base).foldl
    (fun m e => m.filter (fun x => !(x.1 == e.package)))
    ((Targets.errorsOf diff).foldl
      (fun m e => errMapInsert m e.package e.error) [])

/-- The `errors_tree` resolver of `check_errors` (check.rs lines
91-95): every diff error inserted at its package. -/
def errsTreeOf (diff : Targets) : PkgResolver :=
  (Targets.errorsOf diff).foldl
    (fun r e => PkgResolver.insert r e.package (e.package, e.error)) ⟨[]⟩

/-- The package of a `PreexistingPackageFailed` entry. -/
def prePkgOf : ValidationError → Option Package
  | .preexistingPackageFailed p _ => some p
  | _ => none

/-- One iteration of the final loop of `check_errors` (check.rs lines
125-135): the state is the result list plus the `bad_packages` set. -/
def preStep (tree : PkgResolver)
    (acc : List ValidationError × List Package) (path : CellPath) :
    List ValidationError × List Package :=
  match PkgResolver.getPop tree path with
  | some pe =>
    if acc.2.contains pe.1 then acc
    else (acc.1 ++ [.preexistingPackageFailed pe.1 pe.2], acc.2 ++ [pe.1])
  | none => acc

/-- `check_errors` (check.rs lines 89-138; the non-fatal warning loop
only removes base-error packages from the map). -/
def check_errors (base diff : Targets) (changes : Changes) :
    List ValidationError :=
  let res := (diffErrsOf base diff).map
    (fun e => ValidationError.packageFailed e.1 e.2)
  if !res.isEmpty then res
  else ((Changes.cellPathsList changes).foldl (preStep (errsTreeOf diff))
    (res, [])).1

/-- The two-target dependency cycle of the recursion claims: `a`
depends on `b`. -/
def cycleTargetA : BuckTarget :=
  { name := "a".data, package := "foo//".data, package_values := ⟨[], []⟩
    rule_type := "prelude//rules.bzl:cxx_library".data
    oncall := none, deps := ["foo//:b".data], inputs := []
    hash := "123".data, labels := [], ci_srcs := [], ci_deps := [] }

/-- The other half of the cycle: `b` depends on `a`. -/
def cycleTargetB : BuckTarget :=
  { name := "b".data, package := "foo//".data, package_values := ⟨[], []⟩
    rule_type := "prelude//rules.bzl:cxx_library".data
    oncall := none, deps := ["foo//:a".data], inputs := []
    hash := "123".data, labels := [], ci_srcs := [], ci_deps := [] }

/- Helper lemmas about the branch structure of the pattern matcher. -/

theorem dots_data : "/...".data = ['/', '.', '.', '.'] := by rfl

theorem endsWithChar_colon_dots (pre : Str) :
    endsWithChar ':' (pre ++ "/...".data) = false := by
  have h : (pre ++ "/...".data).reverse
      = '.' :: ('.' :: ('.' :: ('/' :: pre.reverse))) := by
    rw [dots_data]
    simp
  simp [endsWithChar, h]

theorem stripSufChar_eq_none_iff (c : Char) (s : Str) :
    stripSufChar c s = none ↔ endsWithChar c s = false := by
  unfold stripSufChar stripSuf dropPre endsWithChar
  cases hs : s.reverse with
  | nil => simp [hasPre]
  | cons x xs =>
    simp only [List.reverse_singleton, List.head?_cons]
    by_cases hx : x = c
    · subst hx
      simp [hasPre]
    · simp [hasPre, hx, Ne.symm hx]

theorem matches_of_colon (pat target : Str) (h : endsWithChar ':' pat = true) :
    TargetPattern.matches pat target = hasPre pat target := by
  simp [TargetPattern.matches, h]

theorem matches_of_dots (pre target : Str) :
    TargetPattern.matches (pre ++ "/...".data) target = true ↔
      ∃ rest, target = pre ++ rest ∧
        (headIs ':' rest = true ∨ headIs '/' rest = true) := by
  unfold TargetPattern.matches
  rw [endsWithChar_colon_dots pre, stripSuf_append]
  simp only [Bool.false_eq_true, if_false]
  constructor
  · intro h
    cases hd : dropPre pre target with
    | none => rw [hd] at h; exact absurd h (by simp)
    | some rest =>
      rw [hd] at h
      refine ⟨rest, dropPre_eq_some _ _ _ hd, ?_⟩
      simpa using h
  · rintro ⟨rest, rfl, hrest⟩
    rw [dropPre_append]
    simpa using hrest

theorem matches_of_neither (pat target : Str)
    (h1 : endsWithChar ':' pat = false)
    (h2 : stripSuf "/...".data pat = none) :
    TargetPattern.matches pat target = (pat == target) := by
  simp [TargetPattern.matches, h1, h2]

theorem matchesPackage_of_neither (pat pkg : Str)
    (h1 : endsWithChar ':' pat = false)
    (h2 : stripSuf "/...".data pat = none) :
    TargetPattern.matchesPackage pat pkg = false := by
  have hc : stripSufChar ':' pat = none := (stripSufChar_eq_none_iff ':' pat).mpr h1
  simp [TargetPattern.matchesPackage, hc, h2]

/-- C2: `TargetPattern::matches` implements the three pattern shapes
bit-exactly.  A pattern ending in `:` (package shape) matches a label iff
the label starts with the pattern's bytes; a pattern of the form
`prefix ++ "/..."` (recursive shape) matches a label iff the label starts
with the prefix and the next character is `:` or `/`; a pattern ending in
neither (specific shape `c//p:n`) matches exactly the label with
identical bytes. -/
theorem C2_matches_three_shapes (pat : TargetPattern) (target : TargetLabel) :
    (endsWithChar ':' pat = true →
      (TargetPattern.matches pat target = true ↔ ∃ r, target = pat ++ r))
    ∧ (∀ pre, pat = pre ++ "/...".data →
      (TargetPattern.matches pat target = true ↔
        ∃ rest, target = pre ++ rest ∧
          (headIs ':' rest = true ∨ headIs '/' rest = true)))
    ∧ (endsWithChar ':' pat = false → stripSuf "/...".data pat = none →
      (TargetPattern.matches pat target = true ↔ pat = target)) := by
  refine ⟨?_, ?_, ?_⟩
  · intro h
    rw [matches_of_colon pat target h]
    exact hasPre_iff pat target
  · rintro pre rfl
    exact matches_of_dots pre target
  · intro h1 h2
    rw [matches_of_neither pat target h1 h2]
    exact beq_iff_eq
/-- Witness for C2 at concrete inputs: the package pattern `foo//bar:`
matches `foo//bar:x`, the recursive pattern `foo//bar/...` matches
`foo//bar/baz:qux`, and the specific pattern `foo//bar:baz` matches only
itself. -/
theorem C2_matches_three_shapes_witness :
    TargetPattern.matches "foo//bar:".data "foo//bar:x".data = true
    ∧ TargetPattern.matches "foo//bar/...".data "foo//bar/baz:qux".data = true
    ∧ TargetPattern.matches "foo//bar:baz".data "foo//bar:baz".data = true := by
  refine ⟨?_, ?_, ?_⟩
  · exact ((C2_matches_three_shapes "foo//bar:".data "foo//bar:x".data).1
      (by decide)).mpr ⟨"x".data, by decide⟩
  · exact (((C2_matches_three_shapes "foo//bar/...".data
      "foo//bar/baz:qux".data).2.1 "foo//bar".data (by decide))).mpr
      ⟨"/baz:qux".data, by decide, Or.inr (by decide)⟩
  · exact ((C2_matches_three_shapes "foo//bar:baz".data
      "foo//bar:baz".data).2.2 (by decide) (by decide)).mpr rfl

/-- C10: a pattern ending in neither `:` nor `/...` (outside the three
documented shapes, e.g. `foo//bar`) matches a label iff the bytes are
identical, and matches no package at all. -/
theorem C10_other_patterns (pat : TargetPattern) (L : TargetLabel)
    (pkg : Package)
    (h1 : endsWithChar ':' pat = false)
    (h2 : stripSuf "/...".data pat = none) :
    (TargetPattern.matches pat L = true ↔ pat = L)
    ∧ TargetPattern.matchesPackage pat pkg = false := by
  constructor
  · rw [matches_of_neither pat L h1 h2]
    exact beq_iff_eq
  · exact matchesPackage_of_neither pat pkg h1 h2

/-- Witness for C10: the pattern `foo//bar` (no trailing `:` or `/...`)
matches exactly itself and matches no package. -/
theorem C10_other_patterns_witness :
    TargetPattern.matches "foo//bar".data "foo//bar".data = true
    ∧ TargetPattern.matchesPackage "foo//bar".data "foo//bar".data = false := by
  have h := C10_other_patterns "foo//bar".data "foo//bar".data
    "foo//bar".data (by decide) (by decide)
  exact ⟨h.1.mpr rfl, h.2⟩

/- Lemmas locating the unique occurrence of a character, used to reason
about `TargetLabel::package` (split at the last `:`). -/

theorem splitOnceChar_not_mem (c : Char) (xs ys : Str) (h : c ∉ xs) :
    splitOnceChar c (xs ++ c :: ys) = some (xs, ys) := by
  induction xs with
  | nil => simp [splitOnceChar]
  | cons x xt ih =>
    have hx : x ≠ c := fun hxc => h (List.mem_cons.mpr (Or.inl hxc.symm))
    have ht : c ∉ xt := fun hm => h (List.mem_cons_of_mem _ hm)
    simp [splitOnceChar, hx, ih ht]

theorem rsplitOnceChar_unique (c : Char) (a b : Str) (hb : c ∉ b) :
    rsplitOnceChar c (a ++ c :: b) = some (a, b) := by
  unfold rsplitOnceChar
  have hrev : (a ++ c :: b).reverse = b.reverse ++ c :: a.reverse := by
    simp
  rw [hrev, splitOnceChar_not_mem c b.reverse a.reverse (by simpa using hb)]
  simp

theorem count_eq_one_split (l : Str) (c : Char) (h : l.count c = 1) :
    ∃ a b, l = a ++ c :: b ∧ c ∉ a ∧ c ∉ b := by
  induction l with
  | nil => simp [List.count_nil] at h
  | cons x xs ih =>
    by_cases hx : x = c
    · subst hx
      have hxs : xs.count x = 0 := by
        have := h
        rw [List.count_cons_self] at this
        omega
      exact ⟨[], xs, by simp, by simp, by
        simpa using (List.count_eq_zero.mp hxs)⟩
    · have hxs : xs.count c = 1 := by
        have := h
        rw [List.count_cons_of_ne (Ne.symm hx)] at this
        exact this
      obtain ⟨a, b, rfl, ha, hb⟩ := ih hxs
      refine ⟨x :: a, b, by simp, ?_, hb⟩
      intro hm
      rcases List.mem_cons.mp hm with h1 | h1
      · exact hx h1.symm
      · exact ha h1

theorem count_append_cons (a b : Str) (c : Char) :
    (a ++ c :: b).count c = a.count c + b.count c + 1 := by
  rw [List.count_append, List.count_cons_self]
  omega

theorem matchesPackage_of_dots (pre pkg : Str) :
    TargetPattern.matchesPackage (pre ++ "/...".data) pkg
      = match dropPre pre pkg with
        | some rest => rest.isEmpty || headIs '/' rest
        | none => false := by
  unfold TargetPattern.matchesPackage
  rw [(stripSufChar_eq_none_iff ':' _).mpr (endsWithChar_colon_dots pre),
    stripSuf_append]

/-- C8 counterexample: the claim fails as stated, at two concrete inputs.
First, the package pattern `c//p:` matches the label `c//p:a:b`, whose
`package()` is `c//p:a`, yet `matches_package` rejects that package.
Second, the pattern `c//p:q/...` (recursive by suffix) matches the label
`c//p:q/x`, whose `package()` is `c//p`, yet `matches_package` rejects
it. -/
theorem C8_counterexample :
    (endsWithChar ':' "c//p:".data = true
      ∧ TargetPattern.matches "c//p:".data "c//p:a:b".data = true
      ∧ TargetLabel.packageOpt "c//p:a:b".data = some "c//p:a".data
      ∧ TargetPattern.matchesPackage "c//p:".data "c//p:a".data = false)
    ∧ ("c//p:q/...".data = "c//p:q".data ++ "/...".data
      ∧ TargetPattern.matches "c//p:q/...".data "c//p:q/x".data = true
      ∧ TargetLabel.packageOpt "c//p:q/x".data = some "c//p".data
      ∧ TargetPattern.matchesPackage "c//p:q/...".data "c//p".data = false) := by
  decide

/-- C8 amended: `matches` and `matches_package` are consistent for
well-formed labels (exactly one `:`) and, in the recursive case, patterns
whose stripped prefix contains no `:`.  If the pattern is specific
(neither suffix) and matches the label, the package never matches; if it
is a package pattern (trailing `:`) and matches, the label's package
matches; if it is a recursive pattern with a `:`-free prefix and matches,
the label's package matches. -/
theorem C8_amended (pat : TargetPattern) (L : TargetLabel) (pkgL : Package)
    (hkey : TargetLabel.packageOpt L = some pkgL)
    (hone : L.count ':' = 1)
    (hm : TargetPattern.matches pat L = true) :
    (endsWithChar ':' pat = false → stripSuf "/...".data pat = none →
      TargetPattern.matchesPackage pat pkgL = false)
    ∧ (endsWithChar ':' pat = true →
      TargetPattern.matchesPackage pat pkgL = true)
    ∧ (∀ pre, pat = pre ++ "/...".data → ':' ∉ pre →
      TargetPattern.matchesPackage pat pkgL = true) := by
  refine ⟨fun h1 h2 => matchesPackage_of_neither pat pkgL h1 h2, ?_, ?_⟩
  · intro hcol
    obtain ⟨q, rfl⟩ := (endsWithChar_iff ':' pat).mp hcol
    rw [matches_of_colon _ _ hcol] at hm
    obtain ⟨r, rfl⟩ := (hasPre_iff _ _).mp hm
    have hL : q ++ [':'] ++ r = q ++ ':' :: r := by simp
    rw [hL] at hkey hone
    rw [count_append_cons] at hone
    have hq : ':' ∉ q := List.count_eq_zero.mp (by omega)
    have hr : ':' ∉ r := List.count_eq_zero.mp (by omega)
    have : TargetLabel.packageOpt (q ++ ':' :: r) = some q := by
      unfold TargetLabel.packageOpt
      rw [rsplitOnceChar_unique ':' q r hr]
      rfl
    rw [this] at hkey
    have hpq : pkgL = q := by simpa using hkey.symm
    subst hpq
    unfold TargetPattern.matchesPackage
    rw [show stripSufChar ':' (pkgL ++ [':']) = some pkgL from
      stripSuf_append [':'] pkgL]
    simp
  · rintro pre rfl hpre
    obtain ⟨rest, rfl, hrest⟩ := (matches_of_dots pre L).mp hm
    rw [List.count_append] at hone
    have hpre0 : pre.count ':' = 0 := List.count_eq_zero.mpr hpre
    have hrest1 : rest.count ':' = 1 := by omega
    obtain ⟨a, b, rfl, ha, hb⟩ := count_eq_one_split rest ':' hrest1
    have hsplit : pre ++ (a ++ ':' :: b) = (pre ++ a) ++ ':' :: b := by simp
    have hkey2 : TargetLabel.packageOpt ((pre ++ a) ++ ':' :: b)
        = some (pre ++ a) := by
      unfold TargetLabel.packageOpt
      rw [rsplitOnceChar_unique ':' (pre ++ a) b hb]
      rfl
    rw [hsplit, hkey2] at hkey
    have hpq : pkgL = pre ++ a := by simpa using hkey.symm
    subst hpq
    rw [matchesPackage_of_dots]
    cases hrest with
    | inl hcol =>
      have ha0 : a = [] := by
        cases a with
        | nil => rfl
        | cons x xt =>
          simp only [headIs, List.cons_append, List.head?_cons] at hcol
          have hx : x = ':' := by simpa using hcol
          exact absurd (List.mem_cons.mpr (Or.inl hx.symm)) ha
      subst ha0
      rw [dropPre_append]
      simp
    | inr hsl =>
      cases a with
      | nil =>
        simp [headIs] at hsl
      | cons x xt =>
        have hx : x = '/' := by
          simp only [headIs, List.cons_append, List.head?_cons] at hsl
          simpa using hsl
        subst hx
        rw [dropPre_append]
        simp [headIs]

/-- Witness for C8 amended: the package pattern `foo//bar:` matches
`foo//bar:x` (one colon, package `foo//bar`), and `matches_package`
agrees. -/
theorem C8_amended_witness :
    TargetPattern.matchesPackage "foo//bar:".data "foo//bar".data = true := by
  have h := C8_amended "foo//bar:".data "foo//bar:x".data "foo//bar".data
    (by decide) (by decide) (by decide)
  exact h.2.1 (by decide)

/- Lemmas about cell path resolution. -/

theorem splitOnceStr_cell (c rel : Str) (hc : '/' ∉ c) :
    splitOnceStr "//".data (c ++ "//".data ++ rel) = some (c, rel) := by
  induction c with
  | nil =>
    show splitOnceStr "//".data ('/' :: '/' :: rel) = some ([], rel)
    simp [splitOnceStr, hasPre]
  | cons x xs ih =>
    have hx : x ≠ '/' := fun h => hc (List.mem_cons.mpr (Or.inl h.symm))
    have ht : '/' ∉ xs := fun hm => hc (List.mem_cons_of_mem _ hm)
    have hpre : hasPre "//".data (x :: (xs ++ "//".data ++ rel)) = false := by
      have hdd : "//".data = '/' :: '/' :: [] := by rfl
      rw [hdd]
      simp [hasPre, Ne.symm hx]
    show splitOnceStr "//".data (x :: (xs ++ "//".data ++ rel)) = some (x :: xs, rel)
    rw [splitOnceStr, hpre]
    simp only [Bool.false_eq_true, if_false, ih ht]
    rfl

theorem dropPre_path_join (p rel : Str) :
    dropPre p (ProjectRelativePath.join p rel)
      = some (if p.isEmpty then rel else '/' :: rel) := by
  unfold ProjectRelativePath.join
  by_cases hp : p.isEmpty
  · have hnil : p = [] := by
      cases p with
      | nil => rfl
      | cons a b => simp [List.isEmpty] at hp
    subst hnil
    simp [dropPre, hasPre]
  · rw [if_neg hp, if_neg hp]
    exact dropPre_append p ('/' :: rel)

theorem dropPre_slash_none (x : Str) (hx : headIs '/' x = false) :
    dropPre ['/'] x = none := by
  cases x with
  | nil => rfl
  | cons h t =>
    simp only [headIs, List.head?_cons] at hx
    have : h ≠ '/' := by simpa using hx
    simp [dropPre, hasPre, Ne.symm this]

theorem resolve_join (info : CellInfo) (c : CellName) (rel : Str) (d : CellData)
    (hc : '/' ∉ c) (hlook : lookupAssoc info.cells c = some d) :
    CellInfo.resolve info (CellName.join c rel)
      = some (ProjectRelativePath.join d.path rel) := by
  have h1 : CellPath.cellOpt (CellName.join c rel) = some c := by
    unfold CellPath.cellOpt CellName.join
    rw [splitOnceStr_cell c rel hc]
    rfl
  have h2 : CellPath.pathOpt (CellName.join c rel) = some rel := by
    unfold CellPath.pathOpt CellName.join
    rw [splitOnceStr_cell c rel hc]
    rfl
  unfold CellInfo.resolve
  rw [h1, h2]
  simp [hlook]

/-- C3 amended: `unresolve ∘ resolve` is the identity on a `CellPath`
`c//rel` whose cell `c` is in the cell map, provided the first entry of
the (longest-first) path table whose project-relative path is a prefix of
`resolve(c//rel)` is `c`'s own entry, `c` is a bare identifier and `rel`
has no leading slash.  The proviso fails for nested cells (see the
counterexample), which is the only amendment over the original claim. -/
theorem C3_amended (info : CellInfo) (c : CellName) (rel : Str) (d : CellData)
    (preE postE : List (CellName × ProjectRelativePath))
    (hlook : lookupAssoc info.cells c = some d)
    (hpaths : info.paths = preE ++ (c, d.path) :: postE)
    (hbefore : ∀ e ∈ preE,
      hasPre e.2 (ProjectRelativePath.join d.path rel) = false)
    (hcell : '/' ∉ c)
    (hrel : headIs '/' rel = false) :
    CellInfo.resolve info (CellName.join c rel)
      = some (ProjectRelativePath.join d.path rel)
    ∧ CellInfo.unresolve info (ProjectRelativePath.join d.path rel)
      = some (CellName.join c rel) := by
  refine ⟨resolve_join info c rel d hcell hlook, ?_⟩
  unfold CellInfo.unresolve
  rw [hpaths]
  clear hpaths
  revert hbefore
  induction preE with
  | nil =>
    intro _
    rw [List.nil_append]
    simp only [unresolveGo]
    rw [dropPre_path_join]
    by_cases hp : d.path.isEmpty
    · rw [if_pos hp]
      simp [dropPre_slash_none rel hrel]
    · rw [if_neg hp]
      simp [dropPre, hasPre]
  | cons e es ih =>
    intro hbefore
    obtain ⟨ec, ep⟩ := e
    have he : hasPre ep (ProjectRelativePath.join d.path rel) = false :=
      hbefore (ec, ep) (List.mem_cons.mpr (Or.inl rfl))
    have hd : dropPre ep (ProjectRelativePath.join d.path rel) = none := by
      simp [dropPre, he]
    rw [List.cons_append]
    simp only [unresolveGo]
    rw [hd]
    exact ih (fun e hm => hbefore e (List.mem_cons_of_mem _ hm))

/-- The cell layout of scenario S1 (cells.rs test): a repository with
cells `inner1`, `inner2` (nested inside `inner1`), `root` and `prelude`;
`paths` sorted longest first as `CellInfo::parse` produces. -/
def exCellInfoC3 : CellInfo :=
  { cells := [
      ("inner1".data, ⟨"inner1".data, ["BUCK.v2".data, "BUCK".data]⟩),
      ("inner2".data, ⟨"inner1/inside/inner2".data, ["BUCK.v2".data, "BUCK".data]⟩),
      ("root".data, ⟨[], ["BUCK.v2".data, "BUCK".data]⟩),
      ("prelude".data, ⟨"prelude".data, ["TARGETS.v2".data, "TARGETS".data]⟩)]
    paths := [
      ("inner2".data, "inner1/inside/inner2".data),
      ("prelude".data, "prelude".data),
      ("inner1".data, "inner1".data),
      ("root".data, [])] }

/-- C3 counterexample: for `p = inner1//inside/inner2/magic/file.txt`
(whose cell `inner1` is known), `resolve` yields
`inner1/inside/inner2/magic/file.txt`, but `unresolve` returns the
longest-prefix cell `inner2`, so `unresolve (resolve p) ≠ p`. -/
theorem C3_counterexample :
    CellInfo.resolve exCellInfoC3 "inner1//inside/inner2/magic/file.txt".data
      = some "inner1/inside/inner2/magic/file.txt".data
    ∧ CellInfo.unresolve exCellInfoC3 "inner1/inside/inner2/magic/file.txt".data
      = some "inner2//magic/file.txt".data
    ∧ ("inner2//magic/file.txt".data
      ≠ "inner1//inside/inner2/magic/file.txt".data) := by
  decide

/-- Witness for C3 amended, at the cell `inner2` of the same layout:
round-tripping `inner2//magic/file.txt` through `resolve` then
`unresolve` is the identity. -/
theorem C3_amended_witness :
    CellInfo.resolve exCellInfoC3
        (CellName.join "inner2".data "magic/file.txt".data)
      = some (ProjectRelativePath.join "inner1/inside/inner2".data
          "magic/file.txt".data)
    ∧ CellInfo.unresolve exCellInfoC3
        (ProjectRelativePath.join "inner1/inside/inner2".data
          "magic/file.txt".data)
      = some (CellName.join "inner2".data "magic/file.txt".data) := by
  exact C3_amended exCellInfoC3 "inner2".data "magic/file.txt".data
    ⟨"inner1/inside/inner2".data, ["BUCK.v2".data, "BUCK".data]⟩
    []
    [("prelude".data, "prelude".data), ("inner1".data, "inner1".data),
      ("root".data, [])]
    (by decide) (by decide) (by simp) (by decide) (by decide)

/-- C4 counterexample: the path `fbcode//buck2/tests/foo_data/.buckconfig`
lies under `buck2/tests`, so the claim's predicate is false on it (and it
is not a buck deployment path), yet `rerun` returns `Everything` for a
change list containing it, because rerun.rs's `is_buckconfig` has no
`buck2/tests` exception. -/
theorem C4_counterexample :
    rerun_returns_everything
      ⟨[Status.modified "fbcode//buck2/tests/foo_data/.buckconfig".data],
        [Status.modified "fbcode/buck2/tests/foo_data/.buckconfig".data]⟩ = true
    ∧ claimBuckconfigC4 "fbcode//buck2/tests/foo_data/.buckconfig".data = false
    ∧ is_buck_deployment "fbcode//buck2/tests/foo_data/.buckconfig".data
      = false := by
  decide

/-- C4 amended: `rerun` returns `Everything` iff some changed path
satisfies the claimed buckconfig predicate without the `buck2/tests`
exception (which only the unused `is_buckconfig_change` of
buck/config.rs has) or `is_buck_deployment`. -/
theorem C4_amended (changes : Changes) :
    rerun_returns_everything changes = true ↔
      ∃ p ∈ Changes.cellPathsList changes,
        (claimBuckconfigAmendedC4 p = true ∨ is_buck_deployment p = true) := by
  unfold rerun_returns_everything
  rw [List.any_eq_true]
  constructor
  · rintro ⟨p, hp, hinv⟩
    refine ⟨p, hp, ?_⟩
    unfold invalidates_graph at hinv
    rcases Bool.or_eq_true_iff.mp hinv with h | h
    · exact Or.inl h
    · exact Or.inr h
  · rintro ⟨p, hp, h⟩
    refine ⟨p, hp, ?_⟩
    unfold invalidates_graph
    rcases h with h | h
    · exact Bool.or_eq_true_iff.mpr (Or.inl h)
    · exact Bool.or_eq_true_iff.mpr (Or.inr h)

/- The key order is total and transitive, so mergeSort sorts by it. -/

theorem charEqOfToNat (a b : Char) (h : a.toNat = b.toNat) : a = b := by
  apply Char.eq_of_val_eq
  have h2 : a.val.toNat = b.val.toNat := h
  cases hv : a.val
  cases hw : b.val
  rw [hv, hw] at h2
  congr 1
  exact BitVec.toNat_injective h2

theorem leStr_total (a b : Str) : (leStr a b || leStr b a) = true := by
  induction a generalizing b with
  | nil => simp [leStr]
  | cons x xs ih =>
    cases b with
    | nil => simp [leStr]
    | cons y ys =>
      simp only [leStr]
      rcases Nat.lt_trichotomy x.toNat y.toNat with h | h | h
      · rw [if_pos h]
        simp
      · have h2 : ¬x.toNat < y.toNat := by omega
        have h3 : ¬y.toNat < x.toNat := by omega
        rw [if_neg h2, if_pos h, if_neg h3, if_pos h.symm]
        exact ih ys
      · have h2 : ¬x.toNat < y.toNat := by omega
        have h3 : x.toNat ≠ y.toNat := by omega
        rw [if_neg h2, if_neg h3, if_pos h]
        simp

theorem leStr_trans (a b c : Str) (hab : leStr a b = true)
    (hbc : leStr b c = true) : leStr a c = true := by
  induction a generalizing b c with
  | nil => rfl
  | cons x xs ih =>
    cases b with
    | nil => simp [leStr] at hab
    | cons y ys =>
      cases c with
      | nil => simp [leStr] at hbc
      | cons z zs =>
        simp only [leStr] at hab hbc ⊢
        by_cases h1 : x.toNat < y.toNat
        · by_cases h2 : y.toNat < z.toNat
          · rw [if_pos (Nat.lt_trans h1 h2)]
          · rw [if_neg h2] at hbc
            by_cases h3 : y.toNat = z.toNat
            · rw [if_pos (h3 ▸ h1)]
            · simp [if_neg h3] at hbc
        · rw [if_neg h1] at hab
          by_cases h4 : x.toNat = y.toNat
          · rw [if_pos h4] at hab
            by_cases h2 : y.toNat < z.toNat
            · rw [if_pos (h4 ▸ h2)]
            · rw [if_neg h2] at hbc
              by_cases h3 : y.toNat = z.toNat
              · have hxz : x.toNat = z.toNat := h4.trans h3
                rw [if_pos h3] at hbc
                have hnlt : ¬x.toNat < z.toNat := by omega
                rw [if_neg hnlt, if_pos hxz]
                exact ih ys zs hab hbc
              · simp [if_neg h3] at hbc
          · simp [if_neg h4] at hab

theorem leStr_antisymm (a b : Str) (hab : leStr a b = true)
    (hba : leStr b a = true) : a = b := by
  induction a generalizing b with
  | nil =>
    cases b with
    | nil => rfl
    | cons y ys => simp [leStr] at hba
  | cons x xs ih =>
    cases b with
    | nil => simp [leStr] at hab
    | cons y ys =>
      simp only [leStr] at hab hba
      by_cases h1 : x.toNat < y.toNat
      · have h2 : ¬y.toNat < x.toNat := by omega
        have h3 : y.toNat ≠ x.toNat := by omega
        rw [if_neg h2, if_neg h3] at hba
        exact absurd hba (by simp)
      · rw [if_neg h1] at hab
        by_cases h4 : x.toNat = y.toNat
        · have hxy : x = y := charEqOfToNat x y h4
          rw [if_pos h4] at hab
          have h2 : ¬y.toNat < x.toNat := by omega
          rw [if_neg h2, if_pos h4.symm] at hba
          rw [hxy, ih ys hab hba]
        · simp [if_neg h4] at hab

theorem leKey_total (a b : Package × TargetName) :
    (leKey a b || leKey b a) = true := by
  unfold leKey
  by_cases h : a.1 = b.1
  · rw [if_pos h, if_pos h.symm]
    exact leStr_total a.2 b.2
  · rw [if_neg h, if_neg (Ne.symm h)]
    exact leStr_total a.1 b.1

theorem leKey_trans (a b c : Package × TargetName) (hab : leKey a b = true)
    (hbc : leKey b c = true) : leKey a c = true := by
  unfold leKey at hab hbc ⊢
  by_cases h1 : a.1 = b.1
  · rw [if_pos h1] at hab
    by_cases h2 : b.1 = c.1
    · rw [if_pos h2] at hbc
      rw [if_pos (h1.trans h2)]
      exact leStr_trans _ _ _ hab hbc
    · rw [if_neg h2] at hbc
      rw [if_neg (h1 ▸ h2), h1]
      exact hbc
  · rw [if_neg h1] at hab
    by_cases h2 : b.1 = c.1
    · rw [if_neg (h2 ▸ h1), ← h2]
      exact hab
    · rw [if_neg h2] at hbc
      by_cases h3 : a.1 = c.1
      · exact absurd (leStr_antisymm _ _ hab (h3 ▸ hbc)) h1
      · rw [if_neg h3]
        exact leStr_trans _ _ _ hab hbc

theorem insertByKey_perm (x : BuckTarget) (l : List BuckTarget) :
    (insertByKey x l).Perm (x :: l) := by
  induction l with
  | nil => exact List.Perm.refl _
  | cons y ys ih =>
    show (if leKey (BuckTarget.labelKey y) (BuckTarget.labelKey x)
      then y :: insertByKey x ys else x :: y :: ys).Perm (x :: y :: ys)
    by_cases h : leKey (BuckTarget.labelKey y) (BuckTarget.labelKey x) = true
    · rw [if_pos h]
      have h1 : (y :: insertByKey x ys).Perm (y :: x :: ys) := ih.cons y
      have h2 : (y :: x :: ys).Perm (x :: y :: ys) := List.Perm.swap x y ys
      exact h1.trans h2
    · rw [if_neg h]

theorem mem_insertByKey (z x : BuckTarget) (l : List BuckTarget) :
    z ∈ insertByKey x l ↔ z = x ∨ z ∈ l := by
  rw [(insertByKey_perm x l).mem_iff]
  simp

theorem sorted_insertByKey (x : BuckTarget) (l : List BuckTarget)
    (hl : SortedByKey l) : SortedByKey (insertByKey x l) := by
  induction l with
  | nil => exact List.pairwise_singleton _ _
  | cons y ys ih =>
    obtain ⟨hy, hys⟩ := List.pairwise_cons.mp hl
    show SortedByKey (if leKey (BuckTarget.labelKey y) (BuckTarget.labelKey x)
      then y :: insertByKey x ys else x :: y :: ys)
    by_cases h : leKey (BuckTarget.labelKey y) (BuckTarget.labelKey x) = true
    · rw [if_pos h]
      apply List.pairwise_cons.mpr
      refine ⟨?_, ih hys⟩
      intro z hz
      rcases (mem_insertByKey z x ys).mp hz with h1 | h1
      · rw [h1]
        exact h
      · exact hy z h1
    · rw [if_neg h]
      apply List.pairwise_cons.mpr
      have hxy : leKey (BuckTarget.labelKey x) (BuckTarget.labelKey y)
          = true := by
        rcases Bool.or_eq_true_iff.mp (leKey_total (BuckTarget.labelKey y)
          (BuckTarget.labelKey x)) with h1 | h1
        · exact absurd h1 h
        · exact h1
      refine ⟨?_, hl⟩
      intro z hz
      rcases List.mem_cons.mp hz with h1 | h1
      · rw [h1]
        exact hxy
      · exact leKey_trans _ _ _ hxy (hy z h1)

theorem sortFold_perm (l : List BuckTarget) :
    ∀ acc, (l.foldl (fun acc t => insertByKey t acc) acc).Perm (l ++ acc) := by
  induction l with
  | nil => intro acc; simp
  | cons t ts ih =>
    intro acc
    rw [List.foldl_cons]
    have h1 : (ts.foldl (fun acc t => insertByKey t acc)
        (insertByKey t acc)).Perm (ts ++ insertByKey t acc) := ih _
    have h2 : (ts ++ insertByKey t acc).Perm (ts ++ t :: acc) :=
      List.Perm.append_left ts (insertByKey_perm t acc)
    have h3 : (ts ++ t :: acc).Perm (t :: (ts ++ acc)) := List.perm_middle
    rw [List.cons_append]
    exact (h1.trans h2).trans h3

theorem sortByLabelKey_perm (l : List BuckTarget) :
    (sortByLabelKey l).Perm l := by
  have h := sortFold_perm l []
  rw [List.append_nil] at h
  exact h

theorem sortFold_sorted (l : List BuckTarget) :
    ∀ acc, SortedByKey acc →
    SortedByKey (l.foldl (fun acc t => insertByKey t acc) acc) := by
  induction l with
  | nil => intro acc h; exact h
  | cons t ts ih =>
    intro acc h
    rw [List.foldl_cons]
    exact ih _ (sorted_insertByKey t acc h)

theorem sortByLabelKey_sorted (l : List BuckTarget) :
    SortedByKey (sortByLabelKey l) :=
  sortFold_sorted l [] (List.Pairwise.nil)

theorem mem_sortByLabelKey (t : BuckTarget) (l : List BuckTarget) :
    t ∈ sortByLabelKey l ↔ t ∈ l :=
  (sortByLabelKey_perm l).mem_iff

/- The code-side recursive condition agrees with the claim's plain
disjunction. -/

theorem condRec_eq_claim (gm : List Glob → ProjectRelativePath → Bool)
    (base diff : Targets) (changes : Changes) (track : Bool) (t : BuckTarget)
    (hgm : ∀ p, gm [] p = false)
    (hpar : changes.cell_paths.length = changes.project_paths.length) :
    changeCondRec gm base changes (changed_bzl_files diff changes track) t
      = claimCondRecC1 gm base diff changes track t := by
  unfold changeCondRec claimCondRecC1
  have hci : is_changed_ci_srcs gm t.ci_srcs changes
      = (Changes.projectPathsList changes).any (fun p => gm t.ci_srcs p) := by
    unfold is_changed_ci_srcs
    by_cases h1 : t.ci_srcs.isEmpty
    · have hnil : t.ci_srcs = [] := by
        cases hc : t.ci_srcs with
        | nil => rfl
        | cons a b => rw [hc] at h1; simp [List.isEmpty] at h1
      rw [hnil]
      simp only [List.isEmpty_nil, Bool.true_or, if_true]
      have : ∀ p ∈ Changes.projectPathsList changes, ¬(gm [] p = true) := by
        intro p _
        simp [hgm p]
      exact (List.any_eq_false.mpr this).symm
    · by_cases h2 : Changes.isEmptyChanges changes
      · have hproj : Changes.projectPathsList changes = [] := by
          unfold Changes.isEmptyChanges at h2
          have hcp : changes.cell_paths = [] := List.isEmpty_iff.mp h2
          have : changes.project_paths = [] := by
            have := hpar
            rw [hcp] at this
            exact List.eq_nil_of_length_eq_zero this.symm
          unfold Changes.projectPathsList
          rw [this]
          rfl
        rw [hproj]
        simp [h1, h2]
      · simp [h1, h2]
  have hbzl : (!(changed_bzl_files diff changes track).isEmpty
        && (changed_bzl_files diff changes track).contains
          (RuleType.file t.rule_type))
      = (changed_bzl_files diff changes track).contains
          (RuleType.file t.rule_type) := by
    cases changed_bzl_files diff changes track with
    | nil => simp
    | cons a b => simp
  rw [hci, hbzl]

/-- C1: `immediate_target_changes` classifies each diff target by the
claimed disjunction — package touch, hash change or new target, input in
`Changes`, changed project path matching the `ci_srcs` globs, or rule
file in the transitively dirty `.bzl` set — into the recursive list; a
target failing all of these whose `package_values` differ from its base
counterpart (or that is new) goes into the non-recursive list; all other
targets are omitted; and both lists are sorted by `label_key`.  The glob
matcher of the external glob crate is a parameter satisfying only "an
empty spec matches nothing"; the `Changes` lists are parallel by
construction. -/
theorem C1_immediate_classification
    (gm : List Glob → ProjectRelativePath → Bool)
    (base diff : Targets) (changes : Changes) (track : Bool)
    (hgm : ∀ p, gm [] p = false)
    (hpar : changes.cell_paths.length = changes.project_paths.length) :
    (∀ t, t ∈ (immediate_target_changes gm base diff changes track).recursive
      ↔ t ∈ Targets.targetsOf diff
        ∧ claimCondRecC1 gm base diff changes track t = true)
    ∧ (∀ t, t ∈ (immediate_target_changes gm base diff changes track).non_recursive
      ↔ t ∈ Targets.targetsOf diff
        ∧ claimCondRecC1 gm base diff changes track t = false
        ∧ changeCondPV base t = true)
    ∧ SortedByKey (immediate_target_changes gm base diff changes track).recursive
    ∧ SortedByKey (immediate_target_changes gm base diff changes track).non_recursive := by
  refine ⟨?_, ?_, ?_, ?_⟩
  · intro t
    show t ∈ sortByLabelKey _ ↔ _
    rw [mem_sortByLabelKey, List.mem_filter,
      condRec_eq_claim gm base diff changes track t hgm hpar]
  · intro t
    show t ∈ sortByLabelKey _ ↔ _
    rw [mem_sortByLabelKey, List.mem_filter]
    constructor
    · rintro ⟨hmem, hcond⟩
      rw [condRec_eq_claim gm base diff changes track t hgm hpar] at hcond
      simp only [Bool.and_eq_true, Bool.not_eq_eq_eq_not, Bool.not_true] at hcond
      exact ⟨hmem, hcond.1, hcond.2⟩
    · rintro ⟨hmem, hfalse, hpv⟩
      refine ⟨hmem, ?_⟩
      rw [condRec_eq_claim gm base diff changes track t hgm hpar]
      simp [hfalse, hpv]
  · exact sortByLabelKey_sorted _
  · exact sortByLabelKey_sorted _

/-- Witness for C1: a single new target (absent from the base) lands in
the recursive list of a concrete run. -/
theorem C1_immediate_classification_witness :
    let t : BuckTarget :=
      { name := "aaa".data, package := "foo//bar".data
        package_values := ⟨[], []⟩
        rule_type := "prelude//rules.bzl:cxx_library".data
        oncall := none, deps := [], inputs := [], hash := "123".data
        labels := [], ci_srcs := [], ci_deps := [] }
    t ∈ (immediate_target_changes (fun _ _ => false) [] [.target t]
      ⟨[], []⟩ false).recursive := by
  intro t
  exact ((C1_immediate_classification (fun _ _ => false) [] [.target t]
    ⟨[], []⟩ false (fun _ => rfl) rfl).1 t).mpr ⟨by decide, by decide⟩

/- Basic lemmas about the done map. -/

theorem doneLookup_insert_self (d : List ((Package × TargetName) × Bool))
    (k : Package × TargetName) (b : Bool) :
    doneLookup (doneInsert d k b) k = some b := by
  induction d with
  | nil => simp [doneInsert, doneLookup]
  | cons e es ih =>
    by_cases he : e.1 = k
    · have hm : (e.1 == k) = true := beq_iff_eq.mpr he
      have h2 : doneInsert (e :: es) k b = doneInsert es k b := by
        simp [doneInsert, List.filter_cons, hm]
      rw [h2]
      exact ih
    · have hm : (e.1 == k) = false := beq_eq_false_iff_ne.mpr he
      have h2 : doneInsert (e :: es) k b = e :: doneInsert es k b := by
        simp [doneInsert, List.filter_cons, hm]
      rw [h2]
      unfold doneLookup
      rw [List.find?_cons_of_neg _ (by simp [hm])]
      exact ih

theorem doneLookup_insert_other (d : List ((Package × TargetName) × Bool))
    (k k' : Package × TargetName) (b : Bool) (h : k' ≠ k) :
    doneLookup (doneInsert d k b) k' = doneLookup d k' := by
  induction d with
  | nil =>
    unfold doneInsert doneLookup
    simp [List.find?, beq_eq_false_iff_ne.mpr (Ne.symm h)]
  | cons e es ih =>
    by_cases he : e.1 = k
    · have hm : (e.1 == k) = true := beq_iff_eq.mpr he
      have h2 : doneInsert (e :: es) k b = doneInsert es k b := by
        simp [doneInsert, List.filter_cons, hm]
      have hek' : e.1 ≠ k' := by
        rw [he]
        exact fun hh => h hh.symm
      have h3 : doneLookup (e :: es) k' = doneLookup es k' := by
        unfold doneLookup
        rw [List.find?_cons_of_neg _ (by simp [beq_eq_false_iff_ne.mpr hek'])]
      rw [h2, h3]
      exact ih
    · have hm : (e.1 == k) = false := beq_eq_false_iff_ne.mpr he
      have h2 : doneInsert (e :: es) k b = e :: doneInsert es k b := by
        simp [doneInsert, List.filter_cons, hm]
      rw [h2]
      by_cases he' : e.1 = k'
      · unfold doneLookup
        rw [List.find?_cons_of_pos _ (by simp [he']),
          List.find?_cons_of_pos _ (by simp [he'])]
      · unfold doneLookup
        rw [List.find?_cons_of_neg _ (by simp [beq_eq_false_iff_ne.mpr he']),
          List.find?_cons_of_neg _ (by simp [beq_eq_false_iff_ne.mpr he'])]
        exact ih

theorem doneLookup_none_iff (d : List ((Package × TargetName) × Bool))
    (k : Package × TargetName) :
    doneLookup d k = none ↔ ∀ e ∈ d, e.1 ≠ k := by
  unfold doneLookup
  constructor
  · intro h e he hk
    cases hf : d.find? (fun e => e.1 == k) with
    | none =>
      have := List.find?_eq_none.mp hf e he
      simp [hk] at this
    | some v => simp [hf] at h
  · intro h
    rw [List.find?_eq_none.mpr
      (fun e he hb => h e he (beq_iff_eq.mp hb))]
    rfl

theorem doneLookup_some_mem (d : List ((Package × TargetName) × Bool))
    (k : Package × TargetName) (b : Bool) (h : doneLookup d k = some b) :
    ∃ e ∈ d, e.1 = k ∧ e.2 = b := by
  unfold doneLookup at h
  cases hf : d.find? (fun e => e.1 == k) with
  | none => simp [hf] at h
  | some e =>
    have hm := List.mem_of_find?_eq_some hf
    have hp := List.find?_some hf
    have hb : e.2 = b := by
      rw [hf] at h
      simpa using h
    exact ⟨e, hm, beq_iff_eq.mp hp, hb⟩

/- Filter cardinality lemmas for the measure. -/

theorem filter_length_mono {α : Type} (l : List α) (p q : α → Bool)
    (h : ∀ x ∈ l, q x = true → p x = true) :
    (l.filter q).length ≤ (l.filter p).length := by
  induction l with
  | nil => simp
  | cons a as ih =>
    have ih2 := ih (fun x hx => h x (List.mem_cons_of_mem _ hx))
    by_cases hq : q a = true
    · have hp := h a (List.mem_cons.mpr (Or.inl rfl)) hq
      simp only [List.filter_cons, hq, hp, if_pos]
      simpa using ih2
    · rw [List.filter_cons, List.filter_cons, if_neg hq]
      by_cases hp : p a = true
      · rw [if_pos hp]
        calc (as.filter q).length ≤ (as.filter p).length := ih2
          _ ≤ (as.filter p).length + 1 := Nat.le_succ _
          _ = (a :: as.filter p).length := by simp
      · rw [if_neg hp]
        exact ih2

theorem filter_length_strict {α : Type} (l : List α) (p q : α → Bool)
    (h : ∀ x ∈ l, q x = true → p x = true)
    (x : α) (hx : x ∈ l) (hp : p x = true) (hq : q x = false) :
    (l.filter q).length < (l.filter p).length := by
  induction l with
  | nil => simp at hx
  | cons a as ih =>
    have hmono := filter_length_mono as p q
      (fun y hy => h y (List.mem_cons_of_mem _ hy))
    by_cases hqa : q a = true
    · have hpa := h a (List.mem_cons.mpr (Or.inl rfl)) hqa
      have hax : a ≠ x := fun he => by rw [he, hq] at hqa; exact absurd hqa (by simp)
      have hxs : x ∈ as := by
        rcases List.mem_cons.mp hx with h1 | h1
        · exact absurd h1.symm hax
        · exact h1
      have hrec := ih (fun y hy => h y (List.mem_cons_of_mem _ hy)) hxs
      rw [List.filter_cons, List.filter_cons, if_pos hqa, if_pos hpa]
      simpa using hrec
    · rw [List.filter_cons, List.filter_cons, if_neg hqa]
      by_cases hpa : p a = true
      · rw [if_pos hpa]
        calc (as.filter q).length ≤ (as.filter p).length := hmono
          _ < (as.filter p).length + 1 := Nat.lt_succ_self _
          _ = (a :: as.filter p).length := by simp
      · rw [if_neg hpa]
        have hax : a ≠ x := fun he => by rw [he, hp] at hpa; exact hpa rfl
        have hxs : x ∈ as := by
          rcases List.mem_cons.mp hx with h1 | h1
          · exact absurd h1.symm hax
          · exact h1
        exact ih (fun y hy => h y (List.mem_cons_of_mem _ hy)) hxs

/- Evolution and measure lemmas for single done-map inserts. -/

theorem DoneLe_refl (d : List ((Package × TargetName) × Bool)) : DoneLe d d :=
  ⟨fun _ h => h, fun _ _ h => Or.inl h⟩

theorem DoneLe_trans (d1 d2 d3 : List ((Package × TargetName) × Bool))
    (h12 : DoneLe d1 d2) (h23 : DoneLe d2 d3) : DoneLe d1 d3 := by
  constructor
  · intro k h3
    exact h12.1 k (h23.1 k h3)
  · intro k v h1
    rcases h12.2 k v h1 with h2 | h2
    · exact h23.2 k v h2
    · rcases h23.2 k true h2 with h3 | h3
      · exact Or.inr h3
      · exact Or.inr h3

theorem DoneLe.lookupNone {d d' : List ((Package × TargetName) × Bool)}
    (h : DoneLe d d') (k : Package × TargetName)
    (hn : doneLookup d' k = none) : doneLookup d k = none := by
  cases hl : doneLookup d k with
  | none => rfl
  | some v =>
    rcases h.2 k v hl with h2 | h2 <;> rw [h2] at hn <;> cases hn

theorem DoneLe.lookupSome {d d' : List ((Package × TargetName) × Bool)}
    (h : DoneLe d d') (k : Package × TargetName) (v : Bool)
    (hv : doneLookup d k = some v) : doneLookup d' k ≠ none := by
  rcases h.2 k v hv with h2 | h2 <;> simp [h2]

theorem DoneLe_insert_fresh (d : List ((Package × TargetName) × Bool))
    (k : Package × TargetName) (hk : doneLookup d k = none) :
    DoneLe d (doneInsert d k true) := by
  constructor
  · intro k' h'
    by_cases hkk : k' = k
    · subst hkk
      rw [doneLookup_insert_self] at h'
      cases h'
    · rw [doneLookup_insert_other _ _ _ _ hkk] at h'
      exact h'
  · intro k' v hv
    by_cases hkk : k' = k
    · subst hkk
      rw [hk] at hv
      cases hv
    · rw [doneLookup_insert_other _ _ _ _ hkk]
      exact Or.inl hv

theorem DoneLe_insert_silent (d : List ((Package × TargetName) × Bool))
    (k : Package × TargetName) (hk : doneLookup d k = some false) :
    DoneLe d (doneInsert d k true) := by
  constructor
  · intro k' h'
    by_cases hkk : k' = k
    · subst hkk
      rw [doneLookup_insert_self] at h'
      cases h'
    · rw [doneLookup_insert_other _ _ _ _ hkk] at h'
      exact h'
  · intro k' v hv
    by_cases hkk : k' = k
    · subst hkk
      rw [doneLookup_insert_self]
      exact Or.inr rfl
    · rw [doneLookup_insert_other _ _ _ _ hkk]
      exact Or.inl hv

theorem mMeasure_insert_fresh (K : List (Package × TargetName))
    (d : List ((Package × TargetName) × Bool)) (k : Package × TargetName)
    (hkK : k ∈ K) (hk : doneLookup d k = none) :
    mMeasure K (doneInsert d k true) < mMeasure K d := by
  have hfresh : mFresh K (doneInsert d k true) < mFresh K d := by
    apply filter_length_strict K (fun k' => (doneLookup d k').isNone)
      (fun k' => (doneLookup (doneInsert d k true) k').isNone)
      ?_ k hkK ?_ ?_
    · intro x _ hx
      have hx' : (doneLookup (doneInsert d k true) x).isNone = true := hx
      show (doneLookup d x).isNone = true
      by_cases hkk : x = k
      · subst hkk
        rw [doneLookup_insert_self] at hx'
        cases hx'
      · rw [doneLookup_insert_other _ _ _ _ hkk] at hx'
        exact hx'
    · show (doneLookup d k).isNone = true
      rw [hk]
      rfl
    · show (doneLookup (doneInsert d k true) k).isNone = false
      rw [doneLookup_insert_self]
      rfl
  have hfalse : mFalse (doneInsert d k true) = mFalse d := by
    unfold mFalse doneInsert
    have hfd : d.filter (fun e => !(e.1 == k)) = d := by
      apply List.filter_eq_self.mpr
      intro e he
      have hne := (doneLookup_none_iff d k).mp hk e he
      simp [beq_eq_false_iff_ne.mpr hne]
    rw [List.filter_append, hfd]
    simp
  unfold mMeasure
  omega

theorem mMeasure_insert_silent (K : List (Package × TargetName))
    (d : List ((Package × TargetName) × Bool)) (k : Package × TargetName)
    (hk : doneLookup d k = some false) :
    mMeasure K (doneInsert d k true) < mMeasure K d := by
  have hfresh : mFresh K (doneInsert d k true) = mFresh K d := by
    unfold mFresh
    rw [List.filter_congr]
    intro x _
    show (doneLookup (doneInsert d k true) x).isNone
      = (doneLookup d x).isNone
    by_cases hkk : x = k
    · subst hkk
      rw [doneLookup_insert_self, hk]
      rfl
    · rw [doneLookup_insert_other _ _ _ _ hkk]
  have hfalse : mFalse (doneInsert d k true) < mFalse d := by
    obtain ⟨e0, he0, hk0, hb0⟩ := doneLookup_some_mem d k false hk
    unfold mFalse doneInsert
    rw [List.filter_append]
    have h1 : List.filter (fun e => e.2 == false) [(k, true)] = [] := by
      simp
    rw [h1, List.append_nil, List.filter_filter]
    apply filter_length_strict d (fun e => e.2 == false)
      _ ?_ e0 he0 ?_ ?_
    · intro x _ hx
      simp only [Bool.and_eq_true] at hx
      exact hx.1
    · simp [hb0]
    · simp [hk0, hb0]
  unfold mMeasure
  omega

/- Lemmas about the frontier scan, stated over the flat reverse-dependency
stream. -/

theorem foldl_exploreStep_shape (rs : List BuckTarget) :
    ∀ n s d,
    (∃ dn, (rs.foldl exploreStep (n, s, d)).1 = n ++ dn
        ∧ ∀ t ∈ dn, doneLookup d (BuckTarget.labelKey t) = none)
    ∧ (∃ ds, (rs.foldl exploreStep (n, s, d)).2.1 = s ++ ds
        ∧ ∀ t ∈ ds, doneLookup d (BuckTarget.labelKey t) = some false)
    ∧ DoneLe d (rs.foldl exploreStep (n, s, d)).2.2 := by
  induction rs with
  | nil =>
    intro n s d
    exact ⟨⟨[], by simp, by simp⟩, ⟨[], by simp, by simp⟩, DoneLe_refl d⟩
  | cons r rest ih =>
    intro n s d
    rw [List.foldl_cons]
    cases hk : doneLookup d (BuckTarget.labelKey r) with
    | none =>
      have hstep : exploreStep (n, s, d) r
          = (n ++ [r], s, doneInsert d (BuckTarget.labelKey r) true) := by
        simp [exploreStep, hk]
      rw [hstep]
      obtain ⟨⟨dn, hdn, hdnP⟩, ⟨ds, hds, hdsP⟩, hle⟩ :=
        ih (n ++ [r]) s (doneInsert d (BuckTarget.labelKey r) true)
      have hle0 := DoneLe_insert_fresh d _ hk
      refine ⟨⟨[r] ++ dn, by rw [hdn]; simp, ?_⟩, ⟨ds, hds, ?_⟩,
        DoneLe_trans _ _ _ hle0 hle⟩
      · intro t ht
        rcases List.mem_append.mp ht with h1 | h1
        · have ht2 : t = r := by simpa using h1
          subst ht2
          exact hk
        · exact hle0.lookupNone _ (hdnP t h1)
      · intro t ht
        exact hle0.1 _ (hdsP t ht)
    | some b =>
      cases b with
      | false =>
        have hstep : exploreStep (n, s, d) r
            = (n, s ++ [r], doneInsert d (BuckTarget.labelKey r) true) := by
          simp [exploreStep, hk]
        rw [hstep]
        obtain ⟨⟨dn, hdn, hdnP⟩, ⟨ds, hds, hdsP⟩, hle⟩ :=
          ih n (s ++ [r]) (doneInsert d (BuckTarget.labelKey r) true)
        have hle0 := DoneLe_insert_silent d _ hk
        refine ⟨⟨dn, hdn, ?_⟩, ⟨[r] ++ ds, by rw [hds]; simp, ?_⟩,
          DoneLe_trans _ _ _ hle0 hle⟩
        · intro t ht
          exact hle0.lookupNone _ (hdnP t ht)
        · intro t ht
          rcases List.mem_append.mp ht with h1 | h1
          · have ht2 : t = r := by simpa using h1
            subst ht2
            exact hk
          · exact hle0.1 _ (hdsP t h1)
      | true =>
        have hstep : exploreStep (n, s, d) r = (n, s, d) := by
          simp [exploreStep, hk]
        rw [hstep]
        exact ih n s d

theorem foldl_exploreStep_q (rs : List BuckTarget) :
    ∀ n s d, (n.map BuckTarget.labelKey).Nodup →
    (∀ t ∈ n, doneLookup d (BuckTarget.labelKey t) = some true) →
    ((rs.foldl exploreStep (n, s, d)).1.map BuckTarget.labelKey).Nodup
    ∧ ∀ t ∈ (rs.foldl exploreStep (n, s, d)).1,
        doneLookup (rs.foldl exploreStep (n, s, d)).2.2
          (BuckTarget.labelKey t) = some true := by
  induction rs with
  | nil =>
    intro n s d h1 h2
    exact ⟨h1, h2⟩
  | cons r rest ih =>
    intro n s d h1 h2
    rw [List.foldl_cons]
    cases hk : doneLookup d (BuckTarget.labelKey r) with
    | none =>
      have hstep : exploreStep (n, s, d) r
          = (n ++ [r], s, doneInsert d (BuckTarget.labelKey r) true) := by
        simp [exploreStep, hk]
      rw [hstep]
      apply ih
      · rw [List.map_append]
        rw [List.nodup_append]
        refine ⟨h1, by simp, ?_⟩
        intro x hx hy
        have hxr : x = BuckTarget.labelKey r := by simpa using hy
        obtain ⟨t, ht, hkt⟩ := List.mem_map.mp hx
        rw [hxr] at hkt
        rw [← hkt] at hk
        rw [h2 t ht] at hk
        cases hk
      · intro t ht
        rcases List.mem_append.mp ht with h3 | h3
        · have hne : BuckTarget.labelKey t ≠ BuckTarget.labelKey r := by
            intro he
            rw [← he, h2 t h3] at hk
            cases hk
          rw [doneLookup_insert_other _ _ _ _ hne]
          exact h2 t h3
        · have ht2 : t = r := by simpa using h3
          subst ht2
          rw [doneLookup_insert_self]
    | some b =>
      cases b with
      | false =>
        have hstep : exploreStep (n, s, d) r
            = (n, s ++ [r], doneInsert d (BuckTarget.labelKey r) true) := by
          simp [exploreStep, hk]
        rw [hstep]
        apply ih
        · exact h1
        · intro t ht
          have hne : BuckTarget.labelKey t ≠ BuckTarget.labelKey r := by
            intro he
            rw [← he, h2 t ht] at hk
            cases hk
          rw [doneLookup_insert_other _ _ _ _ hne]
          exact h2 t ht
      | true =>
        have hstep : exploreStep (n, s, d) r = (n, s, d) := by
          simp [exploreStep, hk]
        rw [hstep]
        exact ih n s d h1 h2

theorem foldl_exploreStep_measure (rs : List BuckTarget)
    (K : List (Package × TargetName)) :
    ∀ n s d, (∀ t ∈ rs, BuckTarget.labelKey t ∈ K) →
    mMeasure K ((rs.foldl exploreStep (n, s, d)).2.2)
      + (rs.foldl exploreStep (n, s, d)).1.length
      + (rs.foldl exploreStep (n, s, d)).2.1.length
      ≤ mMeasure K d + n.length + s.length := by
  induction rs with
  | nil =>
    intro n s d _
    exact Nat.le_refl _
  | cons r rest ih =>
    intro n s d hK
    rw [List.foldl_cons]
    have hKrest : ∀ t ∈ rest, BuckTarget.labelKey t ∈ K :=
      fun t ht => hK t (List.mem_cons_of_mem _ ht)
    cases hk : doneLookup d (BuckTarget.labelKey r) with
    | none =>
      have hstep : exploreStep (n, s, d) r
          = (n ++ [r], s, doneInsert d (BuckTarget.labelKey r) true) := by
        simp [exploreStep, hk]
      rw [hstep]
      have hih := ih (n ++ [r]) s (doneInsert d (BuckTarget.labelKey r) true)
        hKrest
      have hm := mMeasure_insert_fresh K d (BuckTarget.labelKey r)
        (hK r (List.mem_cons.mpr (Or.inl rfl))) hk
      have hlen : (n ++ [r]).length = n.length + 1 := by simp
      omega
    | some b =>
      cases b with
      | false =>
        have hstep : exploreStep (n, s, d) r
            = (n, s ++ [r], doneInsert d (BuckTarget.labelKey r) true) := by
          simp [exploreStep, hk]
        rw [hstep]
        have hih := ih n (s ++ [r]) (doneInsert d (BuckTarget.labelKey r) true)
          hKrest
        have hm := mMeasure_insert_silent K d (BuckTarget.labelKey r) hk
        have hlen : (s ++ [r]).length = s.length + 1 := by simp
        omega
      | true =>
        have hstep : exploreStep (n, s, d) r = (n, s, d) := by
          simp [exploreStep, hk]
        rw [hstep]
        exact ih n s d hKrest

theorem foldl_exploreStep_complete (rs : List BuckTarget)
    (k : Package × TargetName) :
    ∀ n s d,
    ((∃ u ∈ n, BuckTarget.labelKey u = k)
      ∨ (doneLookup d k = none ∧ ∃ t ∈ rs, BuckTarget.labelKey t = k)) →
    ∃ u ∈ (rs.foldl exploreStep (n, s, d)).1, BuckTarget.labelKey u = k := by
  induction rs with
  | nil =>
    intro n s d h
    rcases h with ⟨u, hu, huk⟩ | ⟨_, t, ht, _⟩
    · exact ⟨u, hu, huk⟩
    · cases ht
  | cons r rest ih =>
    intro n s d h
    rw [List.foldl_cons]
    cases hk : doneLookup d (BuckTarget.labelKey r) with
    | none =>
      have hstep : exploreStep (n, s, d) r
          = (n ++ [r], s, doneInsert d (BuckTarget.labelKey r) true) := by
        simp [exploreStep, hk]
      rw [hstep]
      apply ih
      rcases h with ⟨u, hu, huk⟩ | ⟨hnone, t, ht, htk⟩
      · exact Or.inl ⟨u, List.mem_append.mpr (Or.inl hu), huk⟩
      · by_cases hrk : BuckTarget.labelKey r = k
        · exact Or.inl ⟨r, List.mem_append.mpr (Or.inr (by simp)), hrk⟩
        · rcases List.mem_cons.mp ht with h1 | h1
          · rw [h1] at htk
            exact absurd htk hrk
          · refine Or.inr ⟨?_, t, h1, htk⟩
            rw [doneLookup_insert_other _ _ _ _ (fun he => hrk he.symm)]
            exact hnone
    | some b =>
      have hne : ∀ v, doneLookup d (BuckTarget.labelKey r) = some v →
          doneLookup d k = none → BuckTarget.labelKey r ≠ k := by
        intro v hv hnone he
        rw [he, hnone] at hv
        cases hv
      cases b with
      | false =>
        have hstep : exploreStep (n, s, d) r
            = (n, s ++ [r], doneInsert d (BuckTarget.labelKey r) true) := by
          simp [exploreStep, hk]
        rw [hstep]
        apply ih
        rcases h with ⟨u, hu, huk⟩ | ⟨hnone, t, ht, htk⟩
        · exact Or.inl ⟨u, hu, huk⟩
        · have hrk := hne false hk hnone
          rcases List.mem_cons.mp ht with h1 | h1
          · rw [h1] at htk
            exact absurd htk hrk
          · refine Or.inr ⟨?_, t, h1, htk⟩
            rw [doneLookup_insert_other _ _ _ _ (fun he => hrk he.symm)]
            exact hnone
      | true =>
        have hstep : exploreStep (n, s, d) r = (n, s, d) := by
          simp [exploreStep, hk]
        rw [hstep]
        apply ih
        rcases h with ⟨u, hu, huk⟩ | ⟨hnone, t, ht, htk⟩
        · exact Or.inl ⟨u, hu, huk⟩
        · have hrk := hne true hk hnone
          rcases List.mem_cons.mp ht with h1 | h1
          · rw [h1] at htk
            exact absurd htk hrk
          · exact Or.inr ⟨hnone, t, h1, htk⟩

theorem explore_eq_stream (rdeps : TargetMap) (follow : RuleType → Bool)
    (items : List BuckTarget) :
    ∀ st, items.foldl (exploreItem rdeps follow) st
      = (exploreStream rdeps follow items).foldl exploreStep st := by
  induction items with
  | nil => intro st; rfl
  | cons lbl rest ih =>
    intro st
    rw [List.foldl_cons]
    have hstream : exploreStream rdeps follow (lbl :: rest)
        = (if follow lbl.rule_type
            then TargetMap.get rdeps (BuckTarget.label lbl) else [])
          ++ exploreStream rdeps follow rest := by
      simp [exploreStream]
    rw [hstream, List.foldl_append]
    have hitem : exploreItem rdeps follow st lbl
        = (if follow lbl.rule_type
            then TargetMap.get rdeps (BuckTarget.label lbl) else []).foldl
          exploreStep st := by
      unfold exploreItem
      by_cases hf : follow lbl.rule_type = true
      · rw [if_pos hf, if_pos hf]
      · rw [if_neg hf, if_neg hf]
        rfl
    rw [hitem]
    exact ih _

theorem explore_eq (rdeps : TargetMap) (follow : RuleType → Bool)
    (items : List BuckTarget) (done : List ((Package × TargetName) × Bool)) :
    explore rdeps follow items done
      = (exploreStream rdeps follow items).foldl exploreStep ([], [], done) :=
  explore_eq_stream rdeps follow items ([], [], done)

/- Key-list bookkeeping helpers for the BFS layers. -/

theorem DoneLe.neNone {d d' : List ((Package × TargetName) × Bool)}
    (h : DoneLe d d') (k : Package × TargetName)
    (hn : doneLookup d k ≠ none) : doneLookup d' k ≠ none := by
  cases hl : doneLookup d k with
  | none => exact absurd hl hn
  | some v => exact h.lookupSome k v hl

theorem keys_sorted_perm (items : List BuckTarget) :
    ((sortByLabelKey items).map BuckTarget.labelKey).Perm
      (items.map BuckTarget.labelKey) :=
  (sortByLabelKey_perm items).map _

theorem flatten_addResult (rs : List (List BuckTarget)) (items : List BuckTarget) :
    (addResult rs items).flatten = rs.flatten ++ sortByLabelKey items := by
  simp [addResult]

theorem nodup_keys_emit (flat items : List BuckTarget)
    (hA : ((flat ++ items).map BuckTarget.labelKey).Nodup) :
    ((flat ++ sortByLabelKey items).map BuckTarget.labelKey).Nodup := by
  have hperm : ((flat ++ sortByLabelKey items).map BuckTarget.labelKey).Perm
      ((flat ++ items).map BuckTarget.labelKey) := by
    rw [List.map_append, List.map_append]
    exact List.Perm.append_left _ (keys_sorted_perm items)
  exact hperm.nodup_iff.mpr hA

theorem nodup_keys_drop_mid (flat mid items : List BuckTarget)
    (hA : (((flat ++ mid) ++ items).map BuckTarget.labelKey).Nodup) :
    ((flat ++ items).map BuckTarget.labelKey).Nodup := by
  have hsub : List.Sublist ((flat ++ items).map BuckTarget.labelKey)
      (((flat ++ mid) ++ items).map BuckTarget.labelKey) := by
    apply List.Sublist.map
    rw [List.append_assoc]
    exact (List.Sublist.refl flat).append (List.sublist_append_right mid items)
  exact List.Nodup.sublist hsub hA


theorem eq_nil_of_not_isEmpty_ne {α : Type} (l : List α)
    (h : ¬((!l.isEmpty) = true)) : l = [] := by
  cases l with
  | nil => rfl
  | cons a b => simp at h

theorem sortByLabelKey_nil : sortByLabelKey ([] : List BuckTarget) = [] := by
  simp [sortByLabelKey]

/- The main loop emits each label key at most once. -/

theorem rloop_flatten_nodup (rdeps : TargetMap) (follow : RuleType → Bool)
    (fuel : Nat) :
    ∀ todo nonRec done silent result,
    ((result.flatten ++ nonRec ++ todo).map BuckTarget.labelKey).Nodup →
    (∀ t, t ∈ result.flatten ++ nonRec ++ todo ++ silent →
      doneLookup done (BuckTarget.labelKey t) ≠ none) →
    ((rloop rdeps follow fuel todo nonRec done silent result).flatten.map
      BuckTarget.labelKey).Nodup := by
  induction fuel with
  | zero =>
    intro todo nonRec done silent result hA hB
    show ((addResult result todo).flatten.map BuckTarget.labelKey).Nodup
    rw [flatten_addResult]
    exact nodup_keys_emit _ _ (nodup_keys_drop_mid result.flatten nonRec todo hA)
  | succ fuel ih =>
    intro todo nonRec done silent result hA hB
    have hmem_flat : ∀ u, u ∈ result.flatten →
        u ∈ result.flatten ++ nonRec ++ todo :=
      fun u hu => List.mem_append.mpr (Or.inl (List.mem_append.mpr (Or.inl hu)))
    have hmem_nr : ∀ u, u ∈ nonRec →
        u ∈ result.flatten ++ nonRec ++ todo :=
      fun u hu => List.mem_append.mpr (Or.inl (List.mem_append.mpr (Or.inr hu)))
    have hmem_todo : ∀ u, u ∈ todo →
        u ∈ result.flatten ++ nonRec ++ todo :=
      fun u hu => List.mem_append.mpr (Or.inr hu)
    by_cases hbreak : (todo.isEmpty && silent.isEmpty) = true
    · have hrw : rloop rdeps follow (fuel + 1) todo nonRec done silent result
          = addResult
            (if !nonRec.isEmpty then addResult result nonRec else result)
            todo := by
        simp only [rloop]
        rw [if_pos hbreak]
      rw [hrw]
      have htodo : todo = [] :=
        List.isEmpty_iff.mp (Bool.and_eq_true_iff.mp hbreak).1
      subst htodo
      by_cases hnr : (!nonRec.isEmpty) = true
      · rw [if_pos hnr, flatten_addResult, flatten_addResult,
          sortByLabelKey_nil, List.append_nil]
        apply nodup_keys_emit
        simpa using hA
      · rw [if_neg hnr, flatten_addResult, sortByLabelKey_nil, List.append_nil]
        simpa using nodup_keys_drop_mid result.flatten nonRec [] hA
    · have hrw : rloop rdeps follow (fuel + 1) todo nonRec done silent result
          = rloop rdeps follow fuel
              (explore rdeps follow (todo ++ silent) done).1
              (if !nonRec.isEmpty then ([] : List BuckTarget) else nonRec)
              (explore rdeps follow (todo ++ silent) done).2.2
              (explore rdeps follow (todo ++ silent) done).2.1
              (if !nonRec.isEmpty then addResult result (nonRec ++ todo)
               else if !todo.isEmpty then addResult result todo
               else result) := by
        simp only [rloop]
        rw [if_neg hbreak]
      have hnr2 : (if (!nonRec.isEmpty) = true then ([] : List BuckTarget)
          else nonRec) = [] := by
        by_cases h : (!nonRec.isEmpty) = true
        · rw [if_pos h]
        · rw [if_neg h, eq_nil_of_not_isEmpty_ne nonRec h]
      rw [hrw, hnr2, explore_eq]
      obtain ⟨⟨dn, hdn, hdnP⟩, ⟨ds, hds, hdsP⟩, hle⟩ :=
        foldl_exploreStep_shape (exploreStream rdeps follow (todo ++ silent))
          [] [] done
      obtain ⟨hQnodup, hQtrue⟩ :=
        foldl_exploreStep_q (exploreStream rdeps follow (todo ++ silent))
          [] [] done (by simp) (by simp)
      rw [List.nil_append] at hdn hds
      -- membership in the new result flattening comes from the old state
      have hres2 : ∀ t, t ∈ (if !nonRec.isEmpty
            then addResult result (nonRec ++ todo)
            else if !todo.isEmpty then addResult result todo
            else result).flatten →
          t ∈ result.flatten ++ nonRec ++ todo := by
        intro t h1
        by_cases hnr : (!nonRec.isEmpty) = true
        · rw [if_pos hnr, flatten_addResult] at h1
          rcases List.mem_append.mp h1 with h3 | h3
          · exact hmem_flat t h3
          · have h4 : t ∈ nonRec ++ todo :=
              (sortByLabelKey_perm _).mem_iff.mp h3
            rcases List.mem_append.mp h4 with h5 | h5
            · exact hmem_nr t h5
            · exact hmem_todo t h5
        · rw [if_neg hnr] at h1
          by_cases htd : (!todo.isEmpty) = true
          · rw [if_pos htd, flatten_addResult] at h1
            rcases List.mem_append.mp h1 with h3 | h3
            · exact hmem_flat t h3
            · exact hmem_todo t ((sortByLabelKey_perm _).mem_iff.mp h3)
          · rw [if_neg htd] at h1
            exact hmem_flat t h1
      -- the new result keys are a permutation of the old tracked keys
      have hres2keys : ((if !nonRec.isEmpty
            then addResult result (nonRec ++ todo)
            else if !todo.isEmpty then addResult result todo
            else result).flatten.map BuckTarget.labelKey).Perm
          ((result.flatten ++ nonRec ++ todo).map BuckTarget.labelKey) := by
        by_cases hnr : (!nonRec.isEmpty) = true
        · rw [if_pos hnr, flatten_addResult]
          apply List.Perm.map
          rw [List.append_assoc]
          exact List.Perm.append_left _ (sortByLabelKey_perm _)
        · rw [if_neg hnr, eq_nil_of_not_isEmpty_ne nonRec hnr]
          by_cases htd : (!todo.isEmpty) = true
          · rw [if_pos htd, flatten_addResult]
            apply List.Perm.map
            rw [List.append_nil]
            exact List.Perm.append_left _ (sortByLabelKey_perm _)
          · rw [if_neg htd, eq_nil_of_not_isEmpty_ne todo htd]
            apply List.Perm.map
            simp
      apply ih
      · -- new nodup invariant
        rw [List.append_nil, List.map_append]
        apply List.Nodup.append
        · exact hres2keys.nodup_iff.mpr hA
        · exact hQnodup
        · intro x hx hy
          obtain ⟨t1, ht1, hk1⟩ := List.mem_map.mp hx
          obtain ⟨t2, ht2, hk2⟩ := List.mem_map.mp hy
          have hb1 : doneLookup done (BuckTarget.labelKey t1) ≠ none :=
            hB t1 (List.mem_append.mpr (Or.inl (hres2 t1 ht1)))
          rw [hdn] at ht2
          have hnone := hdnP t2 ht2
          rw [hk1, ← hk2] at hb1
          exact hb1 hnone
      · -- new done coverage invariant
        intro t ht
        rw [List.append_nil] at ht
        rcases List.mem_append.mp ht with h12 | hsil
        · rcases List.mem_append.mp h12 with h1 | h1
          · exact DoneLe.neNone hle _
              (hB t (List.mem_append.mpr (Or.inl (hres2 t h1))))
          · rw [hQtrue t h1]
            simp
        · rw [hds] at hsil
          have hfalse := hdsP t hsil
          exact DoneLe.neNone hle _ (by simp [hfalse])

theorem foldInsert_covers (l : List BuckTarget) (b : Bool) :
    ∀ d k, (doneLookup d k ≠ none ∨ ∃ t ∈ l, BuckTarget.labelKey t = k) →
    doneLookup (l.foldl
      (fun d t => doneInsert d (BuckTarget.labelKey t) b) d) k ≠ none := by
  induction l with
  | nil =>
    intro d k h
    rcases h with h | ⟨t, ht, _⟩
    · exact h
    · cases ht
  | cons t ts ih =>
    intro d k h
    rw [List.foldl_cons]
    apply ih
    by_cases hk : k = BuckTarget.labelKey t
    · subst hk
      rw [doneLookup_insert_self]
      exact Or.inl (by simp)
    · rw [doneLookup_insert_other _ _ _ _ hk]
      rcases h with h | ⟨u, hu, huk⟩
      · exact Or.inl h
      · rcases List.mem_cons.mp hu with h1 | h1
        · rw [h1] at huk
          exact absurd huk.symm hk
        · exact Or.inr ⟨u, h1, huk⟩

theorem initDone_covers (changes : GraphImpact) (t : BuckTarget)
    (ht : t ∈ changes.recursive ++ changes.non_recursive) :
    doneLookup (initDone changes) (BuckTarget.labelKey t) ≠ none := by
  unfold initDone
  apply foldInsert_covers
  rcases List.mem_append.mp ht with h1 | h1
  · exact Or.inl (foldInsert_covers changes.recursive true []
      (BuckTarget.labelKey t) (Or.inr ⟨t, h1, rfl⟩))
  · exact Or.inr ⟨t, h1, rfl⟩

/-- C5 counterexample: with a `GraphImpact` whose recursive seed list
contains the same target twice, the first emitted layer contains that
target twice, so the layers are not duplicate-free as quantified over
every `GraphImpact`. -/
theorem C5_counterexample :
    let tA : BuckTarget :=
      { name := "a".data, package := "foo//".data
        package_values := ⟨[], []⟩
        rule_type := "prelude//rules.bzl:cxx_library".data
        oncall := none, deps := [], inputs := [], hash := "123".data
        labels := [], ci_srcs := [], ci_deps := [] }
    ¬ (((recursive_target_changes [.target tA] ⟨[tA, tA], []⟩ (some 2)
      (fun _ => true)).flatten.map BuckTarget.labelKey).Nodup) := by
  intro tA
  decide

/-- C5 amended: for every diff graph (cycles included), depth and
follow predicate, and every `GraphImpact` whose seed lists have pairwise
distinct label keys, the layer list of `recursive_target_changes`
contains each label key at most once: layers are pairwise disjoint and
duplicate-free; and in particular, for the two-target cycle `a ↔ b`
seeded with `a`, both `a` and `b` are emitted exactly once across all
layers. -/
theorem C5_amended (diff : Targets) (changes : GraphImpact)
    (depth : Option Nat) (follow : RuleType → Bool)
    (hnd : ((changes.recursive ++ changes.non_recursive).map
      BuckTarget.labelKey).Nodup) :
    ((recursive_target_changes diff changes depth follow).flatten.map
      BuckTarget.labelKey).Nodup
    ∧ ((recursive_target_changes [.target cycleTargetA, .target cycleTargetB]
          ⟨[cycleTargetA], []⟩ (some 5) (fun _ => true)).flatten.map
          BuckTarget.labelKey).count (BuckTarget.labelKey cycleTargetA) = 1
    ∧ ((recursive_target_changes [.target cycleTargetA, .target cycleTargetB]
          ⟨[cycleTargetA], []⟩ (some 5) (fun _ => true)).flatten.map
          BuckTarget.labelKey).count (BuckTarget.labelKey cycleTargetB) = 1 := by
  refine ⟨?_, by decide, by decide⟩
  unfold recursive_target_changes
  by_cases hre : changes.recursive.isEmpty = true
  · rw [if_pos hre]
    have hrec : changes.recursive = [] := List.isEmpty_iff.mp hre
    have hsub : List.Sublist
        ((((if changes.non_recursive.isEmpty then []
            else [changes.non_recursive]) ++ [[]]).take
          (depth.getD USIZE_MAX)).flatten)
        (((if changes.non_recursive.isEmpty then []
            else [changes.non_recursive]) ++ [[]]).flatten) := by
      conv_rhs => rw [← List.take_append_drop (depth.getD USIZE_MAX)
        ((if changes.non_recursive.isEmpty then []
          else [changes.non_recursive]) ++ [[]])]
      rw [List.flatten_append]
      exact List.sublist_append_left _ _
    apply List.Nodup.sublist (List.Sublist.map _ hsub)
    by_cases hnre : changes.non_recursive.isEmpty = true
    · rw [if_pos hnre]
      simp
    · rw [if_neg hnre]
      have hflat : ([changes.non_recursive] ++ [[]]).flatten
          = changes.non_recursive := by simp
      rw [hflat]
      rw [hrec] at hnd
      simpa using hnd
  · rw [if_neg hre]
    apply rloop_flatten_nodup
    · have hperm : ((changes.non_recursive ++ changes.recursive).map
          BuckTarget.labelKey).Perm
          ((changes.recursive ++ changes.non_recursive).map
            BuckTarget.labelKey) :=
        (List.perm_append_comm).map _
      simpa using hperm.nodup_iff.mpr hnd
    · intro t ht
      simp only [List.flatten_nil, List.nil_append, List.append_nil] at ht
      apply initDone_covers
      rcases List.mem_append.mp ht with h1 | h1
      · exact List.mem_append.mpr (Or.inr h1)
      · exact List.mem_append.mpr (Or.inl h1)

/-- Witness for C5 amended: the two-target cycle `a ↔ b` seeded with
`a` yields layers with pairwise distinct label keys, and both `a` and
`b` appear exactly once across all layers. -/
theorem C5_amended_witness :
    ((recursive_target_changes [.target cycleTargetA, .target cycleTargetB]
      ⟨[cycleTargetA], []⟩ (some 5) (fun _ => true)).flatten.map
      BuckTarget.labelKey).Nodup
    ∧ ((recursive_target_changes [.target cycleTargetA, .target cycleTargetB]
        ⟨[cycleTargetA], []⟩ (some 5) (fun _ => true)).flatten.map
        BuckTarget.labelKey).count (BuckTarget.labelKey cycleTargetA) = 1
    ∧ ((recursive_target_changes [.target cycleTargetA, .target cycleTargetB]
        ⟨[cycleTargetA], []⟩ (some 5) (fun _ => true)).flatten.map
        BuckTarget.labelKey).count (BuckTarget.labelKey cycleTargetB) = 1 :=
  C5_amended [.target cycleTargetA, .target cycleTargetB]
    ⟨[cycleTargetA], []⟩ (some 5) (fun _ => true) (by decide)

/- C6: iteration budget and the final empty layer. -/

theorem length_addResult (rs : List (List BuckTarget)) (items : List BuckTarget) :
    (addResult rs items).length = rs.length + 1 := by
  simp [addResult]

theorem rloop_length (rdeps : TargetMap) (follow : RuleType → Bool)
    (fuel : Nat) :
    ∀ todo nonRec done silent result,
    (rloop rdeps follow fuel todo nonRec done silent result).length
      ≤ result.length + fuel + 1 := by
  induction fuel with
  | zero =>
    intro todo nonRec done silent result
    show (addResult result todo).length ≤ result.length + 0 + 1
    rw [length_addResult]
  | succ fuel ih =>
    intro todo nonRec done silent result
    by_cases hbreak : (todo.isEmpty && silent.isEmpty) = true
    · have hrw : rloop rdeps follow (fuel + 1) todo nonRec done silent result
          = addResult
            (if !nonRec.isEmpty then addResult result nonRec else result)
            todo := by
        simp only [rloop]
        rw [if_pos hbreak]
      rw [hrw, length_addResult]
      by_cases hnr : (!nonRec.isEmpty) = true
      · rw [if_pos hnr, length_addResult]
        omega
      · rw [if_neg hnr]
        omega
    · have hrw : rloop rdeps follow (fuel + 1) todo nonRec done silent result
          = rloop rdeps follow fuel
              (explore rdeps follow (todo ++ silent) done).1
              (if !nonRec.isEmpty then ([] : List BuckTarget) else nonRec)
              (explore rdeps follow (todo ++ silent) done).2.2
              (explore rdeps follow (todo ++ silent) done).2.1
              (if !nonRec.isEmpty then addResult result (nonRec ++ todo)
               else if !todo.isEmpty then addResult result todo
               else result) := by
        simp only [rloop]
        rw [if_neg hbreak]
      rw [hrw]
      have hres2len : (if !nonRec.isEmpty then addResult result (nonRec ++ todo)
          else if !todo.isEmpty then addResult result todo
          else result).length ≤ result.length + 1 := by
        by_cases hnr : (!nonRec.isEmpty) = true
        · rw [if_pos hnr, length_addResult]
        · rw [if_neg hnr]
          by_cases htd : (!todo.isEmpty) = true
          · rw [if_pos htd, length_addResult]
          · rw [if_neg htd]
            omega
      have := ih (explore rdeps follow (todo ++ silent) done).1
        (if !nonRec.isEmpty then ([] : List BuckTarget) else nonRec)
        (explore rdeps follow (todo ++ silent) done).2.2
        (explore rdeps follow (todo ++ silent) done).2.1
        (if !nonRec.isEmpty then addResult result (nonRec ++ todo)
         else if !todo.isEmpty then addResult result todo
         else result)
      omega

theorem getLast_addResult_nil (rs : List (List BuckTarget)) :
    (addResult rs []).getLast? = some [] := by
  rw [addResult, sortByLabelKey_nil]
  exact List.getLast?_concat _

theorem rloop_empty_todo (rdeps : TargetMap) (follow : RuleType → Bool)
    (fuel : Nat) (nonRec : List BuckTarget)
    (done : List ((Package × TargetName) × Bool))
    (result : List (List BuckTarget)) :
    (rloop rdeps follow fuel [] nonRec done [] result).getLast? = some [] := by
  cases fuel with
  | zero => exact getLast_addResult_nil _
  | succ n =>
    have hrw : rloop rdeps follow (n + 1) [] nonRec done [] result
        = addResult
          (if !nonRec.isEmpty then addResult result nonRec else result)
          [] := by
      simp only [rloop]
      rw [if_pos (by simp)]
    rw [hrw]
    exact getLast_addResult_nil _

/-- C6 counterexample: with `depth = Some 1` on the graph where `b`
depends on `a` and seed `a`, the loop is cut off by the depth limit and
the returned list ends with the non-empty pending layer `[b]`, not with
an empty layer. -/
theorem C6_counterexample :
    let tA : BuckTarget :=
      { name := "a".data, package := "foo//".data
        package_values := ⟨[], []⟩
        rule_type := "prelude//rules.bzl:cxx_library".data
        oncall := none, deps := [], inputs := [], hash := "123".data
        labels := [], ci_srcs := [], ci_deps := [] }
    let tB : BuckTarget :=
      { name := "b".data, package := "foo//".data
        package_values := ⟨[], []⟩
        rule_type := "prelude//rules.bzl:cxx_library".data
        oncall := none, deps := ["foo//:a".data], inputs := []
        hash := "123".data, labels := [], ci_srcs := [], ci_deps := [] }
    recursive_target_changes [.target tA, .target tB] ⟨[tA], []⟩ (some 1)
      (fun _ => true) = [[tA], [tB]]
    ∧ (recursive_target_changes [.target tA, .target tB] ⟨[tA], []⟩ (some 1)
      (fun _ => true)).getLast? ≠ some [] := by
  intro tA tB
  refine ⟨by decide, by decide⟩

/- Every value stored in the reverse-edge index is a target of the diff
graph, so its label key lies in the key universe of the diff. -/

theorem TargetMap.mem_get_entries (m : TargetMap) (l : TargetLabel)
    (t : BuckTarget) (h : t ∈ TargetMap.get m l) :
    ∃ e ∈ m.entries, e.2 = t := by
  unfold TargetMap.get at h
  obtain ⟨e, he, hsome⟩ := List.mem_filterMap.mp h
  refine ⟨e, he, ?_⟩
  rcases e with ⟨k, v⟩
  cases k with
  | lbl d =>
    dsimp only at hsome
    split at hsome
    · exact Option.some.inj hsome
    · cases hsome
  | pat p =>
    dsimp only at hsome
    split at hsome
    · exact Option.some.inj hsome
    · cases hsome

theorem insertLbl_fold_values (deps : List TargetLabel) (t : BuckTarget) :
    ∀ (m : TargetMap) e,
    e ∈ (deps.foldl (fun m d => TargetMap.insertLbl m d t) m).entries →
    e ∈ m.entries ∨ e.2 = t := by
  induction deps with
  | nil => intro m e he; exact Or.inl he
  | cons d ds ih =>
    intro m e he
    rw [List.foldl_cons] at he
    rcases ih _ e he with h1 | h1
    · unfold TargetMap.insertLbl at h1
      rcases List.mem_append.mp h1 with h2 | h2
      · exact Or.inl h2
      · right
        have h3 : e = (.lbl d, t) := by simpa using h2
        rw [h3]
    · exact Or.inr h1

theorem insertPat_fold_values (deps : List TargetPattern) (t : BuckTarget) :
    ∀ (m : TargetMap) e,
    e ∈ (deps.foldl (fun m d => TargetMap.insertPat m d t) m).entries →
    e ∈ m.entries ∨ e.2 = t := by
  induction deps with
  | nil => intro m e he; exact Or.inl he
  | cons d ds ih =>
    intro m e he
    rw [List.foldl_cons] at he
    rcases ih _ e he with h1 | h1
    · unfold TargetMap.insertPat at h1
      rcases List.mem_append.mp h1 with h2 | h2
      · exact Or.inl h2
      · right
        have h3 : e = (.pat d, t) := by simpa using h2
        rw [h3]
    · exact Or.inr h1

theorem buildStep_values
    (acc : TargetMap × List ((Package × TargetName) × TargetLabel))
    (t : BuckTarget) (e : RdepKey × BuckTarget)
    (he : e ∈ (buildStep acc t).1.entries) :
    e ∈ acc.1.entries ∨ e.2 = t := by
  simp only [buildStep] at he
  rcases insertPat_fold_values _ _ _ _ he with h1 | h1
  · exact insertLbl_fold_values _ _ _ _ h1
  · exact Or.inr h1

theorem buildFold_values (l : List BuckTarget) :
    ∀ (acc : TargetMap × List ((Package × TargetName) × TargetLabel))
      (e : RdepKey × BuckTarget),
    e ∈ ((l.foldl buildStep acc).1).entries →
    e ∈ acc.1.entries ∨ ∃ t ∈ l, e.2 = t := by
  induction l with
  | nil => intro acc e he; exact Or.inl he
  | cons t ts ih =>
    intro acc e he
    rw [List.foldl_cons] at he
    rcases ih _ e he with h1 | ⟨u, hu, h2⟩
    · rcases buildStep_values acc t e h1 with h2 | h2
      · exact Or.inl h2
      · exact Or.inr ⟨t, List.mem_cons.mpr (Or.inl rfl), h2⟩
    · exact Or.inr ⟨u, List.mem_cons_of_mem _ hu, h2⟩

theorem fillHints_values :
    ∀ (l : List BuckTarget) (m : TargetMap)
      (hints : List ((Package × TargetName) × TargetLabel))
      (e : RdepKey × BuckTarget),
    e ∈ (fillHints m hints l).entries →
    e ∈ m.entries ∨ ∃ t ∈ l, e.2 = t := by
  intro l
  induction l with
  | nil => intro m hints e he; exact Or.inl he
  | cons t ts ih =>
    intro m hints e he
    simp only [fillHints] at he
    by_cases hemp : hints.isEmpty = true
    · rw [if_pos hemp] at he
      exact Or.inl he
    · rw [if_neg hemp] at he
      cases hlk : hintsLookup hints (t.package, t.name) with
      | some hl =>
        rw [hlk] at he
        rcases ih _ _ e he with h1 | ⟨u, hu, h2⟩
        · unfold TargetMap.insertLbl at h1
          rcases List.mem_append.mp h1 with h2 | h2
          · exact Or.inl h2
          · right
            have h3 : e = (.lbl hl, t) := by simpa using h2
            exact ⟨t, List.mem_cons.mpr (Or.inl rfl), by rw [h3]⟩
        · exact Or.inr ⟨u, List.mem_cons_of_mem _ hu, h2⟩
      | none =>
        rw [hlk] at he
        rcases ih _ _ e he with h1 | ⟨u, hu, h2⟩
        · exact Or.inl h1
        · exact Or.inr ⟨u, List.mem_cons_of_mem _ hu, h2⟩

theorem buildRdeps_values (diff : Targets) (e : RdepKey × BuckTarget)
    (he : e ∈ (buildRdeps diff).entries) :
    e.2 ∈ Targets.targetsOf diff := by
  simp only [buildRdeps] at he
  rcases fillHints_values _ _ _ _ he with h1 | ⟨t, ht, h2⟩
  · rcases buildFold_values _ _ _ h1 with h2 | ⟨t, ht, h2⟩
    · cases h2
    · rw [h2]; exact ht
  · rw [h2]; exact ht

theorem stream_keys (rdeps : TargetMap) (K : List (Package × TargetName))
    (hK : ∀ e ∈ rdeps.entries, BuckTarget.labelKey e.2 ∈ K)
    (follow : RuleType → Bool) (items : List BuckTarget) :
    ∀ t ∈ exploreStream rdeps follow items, BuckTarget.labelKey t ∈ K := by
  intro t ht
  unfold exploreStream at ht
  obtain ⟨l, hl, htl⟩ := List.mem_flatten.mp ht
  obtain ⟨lbl, _, hrfl⟩ := List.mem_map.mp hl
  rw [← hrfl] at htl
  by_cases hf : follow lbl.rule_type = true
  · rw [if_pos hf] at htl
    obtain ⟨e, he, h2⟩ := TargetMap.mem_get_entries _ _ _ htl
    rw [← h2]
    exact hK e he
  · rw [if_neg hf] at htl
    cases htl

/- Initial-measure bounds. -/

theorem mFresh_le (K : List (Package × TargetName))
    (d : List ((Package × TargetName) × Bool)) : mFresh K d ≤ K.length :=
  List.length_filter_le _ _

theorem mFalse_insert_true (d : List ((Package × TargetName) × Bool))
    (k : Package × TargetName) :
    mFalse (doneInsert d k true) ≤ mFalse d := by
  unfold mFalse doneInsert
  rw [List.filter_append]
  have h1 : ([(k, true)].filter (fun e => e.2 == false)) = [] := by simp
  rw [h1, List.append_nil]
  exact List.Sublist.length_le (List.Sublist.filter _ (List.filter_sublist d))

theorem mFalse_insert_false (d : List ((Package × TargetName) × Bool))
    (k : Package × TargetName) :
    mFalse (doneInsert d k false) ≤ mFalse d + 1 := by
  unfold mFalse doneInsert
  rw [List.filter_append, List.length_append]
  have h1 : ([(k, false)].filter (fun e => e.2 == false)).length ≤ 1 := by simp
  have h2 : (List.filter (fun e => e.2 == false)
        (List.filter (fun e => !(e.1 == k)) d)).length
      ≤ (List.filter (fun e => e.2 == false) d).length :=
    List.Sublist.length_le (List.Sublist.filter _ (List.filter_sublist d))
  omega

theorem mFalse_fold_true (l : List BuckTarget) :
    ∀ d, mFalse (l.foldl
      (fun d t => doneInsert d (BuckTarget.labelKey t) true) d) ≤ mFalse d := by
  induction l with
  | nil => intro d; exact Nat.le_refl _
  | cons t ts ih =>
    intro d
    rw [List.foldl_cons]
    exact le_trans (ih _) (mFalse_insert_true _ _)

theorem mFalse_fold_false (l : List BuckTarget) :
    ∀ d, mFalse (l.foldl
      (fun d t => doneInsert d (BuckTarget.labelKey t) false) d)
      ≤ mFalse d + l.length := by
  induction l with
  | nil => intro d; simp
  | cons t ts ih =>
    intro d
    rw [List.foldl_cons]
    have h1 := ih (doneInsert d (BuckTarget.labelKey t) false)
    have h2 := mFalse_insert_false d (BuckTarget.labelKey t)
    simp only [List.length_cons]
    omega

theorem mFalse_initDone (changes : GraphImpact) :
    mFalse (initDone changes) ≤ changes.non_recursive.length := by
  simp only [initDone]
  have h1 := mFalse_fold_false changes.non_recursive
    (changes.recursive.foldl
      (fun d t => doneInsert d (BuckTarget.labelKey t) true) [])
  have h2 := mFalse_fold_true changes.recursive ([] : List ((Package × TargetName) × Bool))
  have h3 : mFalse ([] : List ((Package × TargetName) × Bool)) = 0 := rfl
  omega

/- The BFS reaches a state with both frontiers empty within the measure
budget, and from such a state every remaining path ends with an empty
layer. -/

theorem rloop_final_empty (rdeps : TargetMap) (follow : RuleType → Bool)
    (K : List (Package × TargetName))
    (hK : ∀ e ∈ rdeps.entries, BuckTarget.labelKey e.2 ∈ K) :
    ∀ fuel todo nonRec done silent result,
    mMeasure K done + 2 ≤ fuel →
    (rloop rdeps follow fuel todo nonRec done silent result).getLast?
      = some [] := by
  intro fuel
  induction fuel with
  | zero =>
    intro todo nonRec done silent result hfuel
    omega
  | succ fuel ih =>
    intro todo nonRec done silent result hfuel
    by_cases hbreak : (todo.isEmpty && silent.isEmpty) = true
    · have htodo : todo = [] := by
        cases todo with
        | nil => rfl
        | cons a b => simp at hbreak
      have hrw : rloop rdeps follow (fuel + 1) todo nonRec done silent result
          = addResult
            (if !nonRec.isEmpty then addResult result nonRec else result)
            todo := by
        simp only [rloop]
        rw [if_pos hbreak]
      rw [hrw, htodo]
      exact getLast_addResult_nil _
    · have hrw : rloop rdeps follow (fuel + 1) todo nonRec done silent result
          = rloop rdeps follow fuel
              (explore rdeps follow (todo ++ silent) done).1
              (if !nonRec.isEmpty then ([] : List BuckTarget) else nonRec)
              (explore rdeps follow (todo ++ silent) done).2.2
              (explore rdeps follow (todo ++ silent) done).2.1
              (if !nonRec.isEmpty then addResult result (nonRec ++ todo)
               else if !todo.isEmpty then addResult result todo
               else result) := by
        simp only [rloop]
        rw [if_neg hbreak]
      rw [hrw]
      have hS := stream_keys rdeps K hK follow (todo ++ silent)
      have hmeas := foldl_exploreStep_measure
        (exploreStream rdeps follow (todo ++ silent)) K [] [] done hS
      have hE := explore_eq rdeps follow (todo ++ silent) done
      rw [← hE] at hmeas
      by_cases hprog : (explore rdeps follow (todo ++ silent) done).1 = []
          ∧ (explore rdeps follow (todo ++ silent) done).2.1 = []
      · rw [hprog.1, hprog.2]
        exact rloop_empty_todo _ _ _ _ _ _
      · apply ih
        have hlen : 1 ≤ (explore rdeps follow (todo ++ silent) done).1.length
            + (explore rdeps follow (todo ++ silent) done).2.1.length := by
          rcases not_and_or.mp hprog with h | h
          · have := List.length_pos.mpr h
            omega
          · have := List.length_pos.mpr h
            omega
        simp only [List.length_nil] at hmeas
        omega

/-- C6 (amended): `recursive_target_changes` always stops within the
depth budget — the returned list has at most `depth + 1` layers (with
`depth = usize::MAX` when `None`) — but the final empty layer is only
guaranteed when the budget is not the binding constraint: whenever
`depth` is at least the number of diff targets plus the number of
non-recursive seeds plus two, the returned layer list ends with `[]`.
(With a small `depth` the loop is cut off mid-frontier and the list ends
with a non-empty pending layer; see the counterexample.) -/
theorem C6_amended (diff : Targets) (changes : GraphImpact)
    (depth : Option Nat) (follow : RuleType → Bool) :
    (recursive_target_changes diff changes depth follow).length
      ≤ depth.getD USIZE_MAX + 1
    ∧ ((Targets.targetsOf diff).length + changes.non_recursive.length + 2
        ≤ depth.getD USIZE_MAX →
      (recursive_target_changes diff changes depth follow).getLast?
        = some []) := by
  constructor
  · simp only [recursive_target_changes]
    by_cases hrec : changes.recursive.isEmpty = true
    · rw [if_pos hrec]
      have h1 := List.length_take_le (depth.getD USIZE_MAX)
        ((if changes.non_recursive.isEmpty then ([] : List (List BuckTarget))
          else [changes.non_recursive]) ++ [[]])
      omega
    · rw [if_neg hrec]
      have h1 := rloop_length (buildRdeps diff) follow (depth.getD USIZE_MAX)
        changes.recursive changes.non_recursive (initDone changes) [] []
      simpa using h1
  · intro hdeep
    simp only [recursive_target_changes]
    by_cases hrec : changes.recursive.isEmpty = true
    · rw [if_pos hrec]
      by_cases hnr : changes.non_recursive.isEmpty = true
      · rw [if_pos hnr]
        have hlen : (([] : List (List BuckTarget)) ++ [[]]).length
            ≤ depth.getD USIZE_MAX := by
          simp only [List.nil_append, List.length_cons, List.length_nil]
          omega
        rw [List.take_of_length_le hlen]
        rfl
      · rw [if_neg hnr]
        have hlen : ([changes.non_recursive] ++ [[]]).length
            ≤ depth.getD USIZE_MAX := by
          simp only [List.length_append, List.length_cons, List.length_nil]
          omega
        rw [List.take_of_length_le hlen]
        exact List.getLast?_concat _
    · rw [if_neg hrec]
      apply rloop_final_empty (buildRdeps diff) follow
        ((Targets.targetsOf diff).map BuckTarget.labelKey)
        (fun e he => List.mem_map_of_mem _ (buildRdeps_values diff e he))
      have h1 := mFresh_le ((Targets.targetsOf diff).map BuckTarget.labelKey)
        (initDone changes)
      have h2 := mFalse_initDone changes
      have h3 : ((Targets.targetsOf diff).map BuckTarget.labelKey).length
          = (Targets.targetsOf diff).length := List.length_map _ _
      unfold mMeasure
      omega

/-- C6 witness: on the two-target chain `b → a` seeded with `a` and
`depth = Some 5` (comfortably above the bound), the layer list ends with
the empty layer. -/
theorem C6_amended_witness :
    let tA : BuckTarget :=
      { name := "a".data, package := "foo//".data
        package_values := ⟨[], []⟩
        rule_type := "prelude//rules.bzl:cxx_library".data
        oncall := none, deps := [], inputs := [], hash := "123".data
        labels := [], ci_srcs := [], ci_deps := [] }
    let tB : BuckTarget :=
      { name := "b".data, package := "foo//".data
        package_values := ⟨[], []⟩
        rule_type := "prelude//rules.bzl:cxx_library".data
        oncall := none, deps := ["foo//:a".data], inputs := []
        hash := "123".data, labels := [], ci_srcs := [], ci_deps := [] }
    (recursive_target_changes [.target tA, .target tB] ⟨[tA], []⟩ (some 5)
      (fun _ => true)).getLast? = some [] := by
  intro tA tB
  exact (C6_amended [.target tA, .target tB] ⟨[tA], []⟩ (some 5)
    (fun _ => true)).2 (by decide)

/- C7: the ci_hint reverse edge. Lookup lemmas for the pending-hints
map, mirroring the done-map lemmas. -/

theorem hintsLookup_insert_self (hs : List ((Package × TargetName) × TargetLabel))
    (k : Package × TargetName) (v : TargetLabel) :
    hintsLookup (hintsInsert hs k v) k = some v := by
  induction hs with
  | nil => simp [hintsInsert, hintsLookup]
  | cons e es ih =>
    by_cases he : e.1 = k
    · have hm : (e.1 == k) = true := beq_iff_eq.mpr he
      have h2 : hintsInsert (e :: es) k v = hintsInsert es k v := by
        simp [hintsInsert, List.filter_cons, hm]
      rw [h2]
      exact ih
    · have hm : (e.1 == k) = false := beq_eq_false_iff_ne.mpr he
      have h2 : hintsInsert (e :: es) k v = e :: hintsInsert es k v := by
        simp [hintsInsert, List.filter_cons, hm]
      rw [h2]
      unfold hintsLookup
      rw [List.find?_cons_of_neg _ (by simp [hm])]
      exact ih

theorem hintsLookup_insert_other (hs : List ((Package × TargetName) × TargetLabel))
    (k k' : Package × TargetName) (v : TargetLabel) (h : k' ≠ k) :
    hintsLookup (hintsInsert hs k v) k' = hintsLookup hs k' := by
  induction hs with
  | nil =>
    unfold hintsInsert hintsLookup
    simp [List.find?, beq_eq_false_iff_ne.mpr (Ne.symm h)]
  | cons e es ih =>
    by_cases he : e.1 = k
    · have hm : (e.1 == k) = true := beq_iff_eq.mpr he
      have h2 : hintsInsert (e :: es) k v = hintsInsert es k v := by
        simp [hintsInsert, List.filter_cons, hm]
      have hek' : e.1 ≠ k' := by
        rw [he]
        exact fun hh => h hh.symm
      have h3 : hintsLookup (e :: es) k' = hintsLookup es k' := by
        unfold hintsLookup
        rw [List.find?_cons_of_neg _ (by simp [beq_eq_false_iff_ne.mpr hek'])]
      rw [h2, h3]
      exact ih
    · have hm : (e.1 == k) = false := beq_eq_false_iff_ne.mpr he
      have h2 : hintsInsert (e :: es) k v = e :: hintsInsert es k v := by
        simp [hintsInsert, List.filter_cons, hm]
      rw [h2]
      by_cases he' : e.1 = k'
      · unfold hintsLookup
        rw [List.find?_cons_of_pos _ (by simp [he']),
          List.find?_cons_of_pos _ (by simp [he'])]
      · unfold hintsLookup
        rw [List.find?_cons_of_neg _ (by simp [beq_eq_false_iff_ne.mpr he']),
          List.find?_cons_of_neg _ (by simp [beq_eq_false_iff_ne.mpr he'])]
        exact ih

theorem hintsLookup_erase_other (hs : List ((Package × TargetName) × TargetLabel))
    (k k' : Package × TargetName) (h : k' ≠ k) :
    hintsLookup (hintsErase hs k) k' = hintsLookup hs k' := by
  induction hs with
  | nil => rfl
  | cons e es ih =>
    by_cases he : e.1 = k
    · have hm : (e.1 == k) = true := beq_iff_eq.mpr he
      have h2 : hintsErase (e :: es) k = hintsErase es k := by
        simp [hintsErase, List.filter_cons, hm]
      have hek' : e.1 ≠ k' := by
        rw [he]
        exact fun hh => h hh.symm
      have h3 : hintsLookup (e :: es) k' = hintsLookup es k' := by
        unfold hintsLookup
        rw [List.find?_cons_of_neg _ (by simp [beq_eq_false_iff_ne.mpr hek'])]
      rw [h2, h3]
      exact ih
    · have hm : (e.1 == k) = false := beq_eq_false_iff_ne.mpr he
      have h2 : hintsErase (e :: es) k = e :: hintsErase es k := by
        simp [hintsErase, List.filter_cons, hm]
      rw [h2]
      by_cases he' : e.1 = k'
      · unfold hintsLookup
        rw [List.find?_cons_of_pos _ (by simp [he']),
          List.find?_cons_of_pos _ (by simp [he'])]
      · unfold hintsLookup
        rw [List.find?_cons_of_neg _ (by simp [beq_eq_false_iff_ne.mpr he']),
          List.find?_cons_of_neg _ (by simp [beq_eq_false_iff_ne.mpr he'])]
        exact ih

/- After the first build loop, the pending-hints map holds the (unique)
hint's label at the destination key. -/

theorem buildFold_hints_final (P : Package) (X : TargetName) (hl : TargetLabel) :
    ∀ (l : List BuckTarget),
    (∀ t ∈ l, RuleType.short t.rule_type = "ci_hint".data →
      hint_applies_to t = some (P, X) → BuckTarget.label t = hl) →
    ∀ (acc : TargetMap × List ((Package × TargetName) × TargetLabel)),
    (hintsLookup acc.2 (P, X) = some hl
      ∨ ∃ t ∈ l, RuleType.short t.rule_type = "ci_hint".data
          ∧ hint_applies_to t = some (P, X)) →
    hintsLookup ((l.foldl buildStep acc).2) (P, X) = some hl := by
  intro l
  induction l with
  | nil =>
    intro _ acc hinv
    rcases hinv with h1 | ⟨t, ht, _⟩
    · exact h1
    · cases ht
  | cons t ts ih =>
    intro huniq acc hinv
    rw [List.foldl_cons]
    have huniqts : ∀ u ∈ ts, RuleType.short u.rule_type = "ci_hint".data →
        hint_applies_to u = some (P, X) → BuckTarget.label u = hl :=
      fun u hu => huniq u (List.mem_cons_of_mem _ hu)
    have hsnd : (buildStep acc t).2
        = if RuleType.short t.rule_type == "ci_hint".data then
            (match hint_applies_to t with
             | some dest => hintsInsert acc.2 dest (BuckTarget.label t)
             | none => acc.2)
          else acc.2 := rfl
    apply ih huniqts
    by_cases hsh : (RuleType.short t.rule_type == "ci_hint".data) = true
    · rw [if_pos hsh] at hsnd
      have hsheq : RuleType.short t.rule_type = "ci_hint".data := eq_of_beq hsh
      cases hd : hint_applies_to t with
      | some dest =>
        rw [hd] at hsnd
        have hsnd2 : (buildStep acc t).2
            = hintsInsert acc.2 dest (BuckTarget.label t) := hsnd
        by_cases hdest : dest = (P, X)
        · left
          rw [hsnd2, hdest, hintsLookup_insert_self]
          have hlt : BuckTarget.label t = hl :=
            huniq t (List.mem_cons.mpr (Or.inl rfl)) hsheq (by rw [hd, hdest])
          rw [hlt]
        · rw [hsnd2, hintsLookup_insert_other _ _ _ _
            (fun he => hdest he.symm)]
          rcases hinv with h1 | ⟨u, hu, hush, hud⟩
          · exact Or.inl h1
          · rcases List.mem_cons.mp hu with h1 | h1
            · rw [h1] at hud
              rw [hud] at hd
              exact absurd (Option.some.inj hd).symm hdest
            · exact Or.inr ⟨u, h1, hush, hud⟩
      | none =>
        rw [hd] at hsnd
        have hsnd2 : (buildStep acc t).2 = acc.2 := hsnd
        rw [hsnd2]
        rcases hinv with h1 | ⟨u, hu, hush, hud⟩
        · exact Or.inl h1
        · rcases List.mem_cons.mp hu with h1 | h1
          · rw [h1] at hud
            rw [hud] at hd
            cases hd
          · exact Or.inr ⟨u, h1, hush, hud⟩
    · rw [if_neg hsh] at hsnd
      rw [hsnd]
      rcases hinv with h1 | ⟨u, hu, hush, hud⟩
      · exact Or.inl h1
      · rcases List.mem_cons.mp hu with h1 | h1
        · rw [h1] at hush
          exact absurd (beq_iff_eq.mpr hush) (by simpa using hsh)
        · exact Or.inr ⟨u, h1, hush, hud⟩

theorem fillHints_mono :
    ∀ (l : List BuckTarget) (m : TargetMap)
      (hints : List ((Package × TargetName) × TargetLabel))
      (e : RdepKey × BuckTarget),
    e ∈ m.entries → e ∈ (fillHints m hints l).entries := by
  intro l
  induction l with
  | nil => intro m hints e he; exact he
  | cons t ts ih =>
    intro m hints e he
    simp only [fillHints]
    by_cases hemp : hints.isEmpty = true
    · rw [if_pos hemp]
      exact he
    · rw [if_neg hemp]
      cases hlk : hintsLookup hints (t.package, t.name) with
      | some hl =>
        exact ih _ _ e (List.mem_append.mpr (Or.inl he))
      | none => exact ih _ _ e he

theorem fillHints_edge (P : Package) (X : TargetName) (hl : TargetLabel) :
    ∀ (l : List BuckTarget) (m : TargetMap)
      (hints : List ((Package × TargetName) × TargetLabel)),
    hintsLookup hints (P, X) = some hl →
    (∃ u ∈ l, u.package = P ∧ u.name = X) →
    ∃ u, u.package = P ∧ u.name = X
      ∧ (RdepKey.lbl hl, u) ∈ (fillHints m hints l).entries := by
  intro l
  induction l with
  | nil =>
    intro m hints _ hex
    obtain ⟨u, hu, _⟩ := hex
    cases hu
  | cons t ts ih =>
    intro m hints hlk hex
    simp only [fillHints]
    by_cases hemp : hints.isEmpty = true
    · have hnil : hints = [] := by
        cases hints with
        | nil => rfl
        | cons a b => simp at hemp
      rw [hnil] at hlk
      cases hlk
    · rw [if_neg hemp]
      by_cases hkey : (t.package, t.name) = (P, X)
      · have hlk2 : hintsLookup hints (t.package, t.name) = some hl := by
          rw [hkey]
          exact hlk
        rw [hlk2]
        have h1 : t.package = P := congrArg Prod.fst hkey
        have h2 : t.name = X := congrArg Prod.snd hkey
        refine ⟨t, h1, h2, ?_⟩
        apply fillHints_mono
        simp [TargetMap.insertLbl]
      · cases hlkt : hintsLookup hints (t.package, t.name) with
        | some hl2 =>
          have hlk2 : hintsLookup (hintsErase hints (t.package, t.name)) (P, X)
              = some hl := by
            rw [hintsLookup_erase_other _ _ _ (fun he => hkey he.symm)]
            exact hlk
          have hex2 : ∃ u ∈ ts, u.package = P ∧ u.name = X := by
            obtain ⟨u, hu, hu1, hu2⟩ := hex
            rcases List.mem_cons.mp hu with h1 | h1
            · exact absurd (by rw [← h1]; exact Prod.ext hu1 hu2) hkey
            · exact ⟨u, h1, hu1, hu2⟩
          exact ih _ _ hlk2 hex2
        | none =>
          have hex2 : ∃ u ∈ ts, u.package = P ∧ u.name = X := by
            obtain ⟨u, hu, hu1, hu2⟩ := hex
            rcases List.mem_cons.mp hu with h1 | h1
            · exact absurd (by rw [← h1]; exact Prod.ext hu1 hu2) hkey
            · exact ⟨u, h1, hu1, hu2⟩
          exact ih _ _ hlk hex2

theorem mem_get_of_entry (m : TargetMap) (l : TargetLabel) (u : BuckTarget)
    (he : (RdepKey.lbl l, u) ∈ m.entries) : u ∈ TargetMap.get m l := by
  unfold TargetMap.get
  exact List.mem_filterMap.mpr ⟨(RdepKey.lbl l, u), he, by simp⟩

theorem rloop_prefix (rdeps : TargetMap) (follow : RuleType → Bool) :
    ∀ fuel todo nonRec done silent result,
    ∃ suffix, rloop rdeps follow fuel todo nonRec done silent result
      = result ++ suffix := by
  intro fuel
  induction fuel with
  | zero =>
    intro todo nonRec done silent result
    exact ⟨[sortByLabelKey todo], rfl⟩
  | succ fuel ih =>
    intro todo nonRec done silent result
    by_cases hbreak : (todo.isEmpty && silent.isEmpty) = true
    · have hrw : rloop rdeps follow (fuel + 1) todo nonRec done silent result
          = addResult
            (if !nonRec.isEmpty then addResult result nonRec else result)
            todo := by
        simp only [rloop]
        rw [if_pos hbreak]
      by_cases hnr : (!nonRec.isEmpty) = true
      · refine ⟨[sortByLabelKey nonRec, sortByLabelKey todo], ?_⟩
        rw [hrw, if_pos hnr]
        simp [addResult]
      · refine ⟨[sortByLabelKey todo], ?_⟩
        rw [hrw, if_neg hnr]
        rfl
    · have hrw : rloop rdeps follow (fuel + 1) todo nonRec done silent result
          = rloop rdeps follow fuel
              (explore rdeps follow (todo ++ silent) done).1
              (if !nonRec.isEmpty then ([] : List BuckTarget) else nonRec)
              (explore rdeps follow (todo ++ silent) done).2.2
              (explore rdeps follow (todo ++ silent) done).2.1
              (if !nonRec.isEmpty then addResult result (nonRec ++ todo)
               else if !todo.isEmpty then addResult result todo
               else result) := by
        simp only [rloop]
        rw [if_neg hbreak]
      have hres : ∃ X, (if !nonRec.isEmpty then addResult result (nonRec ++ todo)
          else if !todo.isEmpty then addResult result todo
          else result) = result ++ X := by
        by_cases hnr : (!nonRec.isEmpty) = true
        · exact ⟨[sortByLabelKey (nonRec ++ todo)], by rw [if_pos hnr]; rfl⟩
        · rw [if_neg hnr]
          by_cases htd : (!todo.isEmpty) = true
          · exact ⟨[sortByLabelKey todo], by rw [if_pos htd]; rfl⟩
          · exact ⟨[], by rw [if_neg htd, List.append_nil]⟩
      obtain ⟨X, hX⟩ := hres
      obtain ⟨suffix, hsuf⟩ := ih
        (explore rdeps follow (todo ++ silent) done).1
        (if !nonRec.isEmpty then ([] : List BuckTarget) else nonRec)
        (explore rdeps follow (todo ++ silent) done).2.2
        (explore rdeps follow (todo ++ silent) done).2.1
        (if !nonRec.isEmpty then addResult result (nonRec ++ todo)
         else if !todo.isEmpty then addResult result todo
         else result)
      refine ⟨X ++ suffix, ?_⟩
      rw [hrw, hsuf, hX, List.append_assoc]

theorem rloop_step (rdeps : TargetMap) (follow : RuleType → Bool)
    (fuel : Nat) (todo : List BuckTarget)
    (done : List ((Package × TargetName) × Bool))
    (silent : List BuckTarget) (result : List (List BuckTarget))
    (htodo : (!todo.isEmpty) = true) :
    rloop rdeps follow (fuel + 1) todo [] done silent result
      = rloop rdeps follow fuel
          (explore rdeps follow (todo ++ silent) done).1 []
          (explore rdeps follow (todo ++ silent) done).2.2
          (explore rdeps follow (todo ++ silent) done).2.1
          (addResult result todo) := by
  have hbreak : ¬((todo.isEmpty && silent.isEmpty) = true) := by
    cases todo with
    | nil => simp at htodo
    | cons a b => simp
  simp only [rloop]
  rw [if_neg hbreak]
  simp [htodo]

/-- C7 counterexample: a target merely *named* `ci_hint@baz` whose rule
type is `cxx_library` (not `ci_hint`) produces no reverse edge, and
seeding it leaves layer 1 empty: `hint_applies_to` is only consulted for
targets whose rule type's short name is `ci_hint`. -/
theorem C7_counterexample :
    let tH : BuckTarget :=
      { name := "ci_hint@baz".data, package := "foo//".data
        package_values := ⟨[], []⟩
        rule_type := "prelude//rules.bzl:cxx_library".data
        oncall := none, deps := [], inputs := [], hash := "123".data
        labels := [], ci_srcs := [], ci_deps := [] }
    let tZ : BuckTarget :=
      { name := "baz".data, package := "foo//".data
        package_values := ⟨[], []⟩
        rule_type := "prelude//rules.bzl:cxx_library".data
        oncall := none, deps := [], inputs := [], hash := "123".data
        labels := [], ci_srcs := [], ci_deps := [] }
    TargetMap.get (buildRdeps [.target tH, .target tZ]) (BuckTarget.label tH)
      = []
    ∧ (recursive_target_changes [.target tH, .target tZ] ⟨[tH], []⟩ (some 3)
        (fun _ => true))[1]? = some [] := by
  intro tH tZ
  refine ⟨by decide, by decide⟩

/-- C7 (amended): the hint edge requires the `ci_hint` *rule type*, not
just the name shape. If `c` is a target of the diff graph whose rule
type's short name is `ci_hint` and whose name is `ci_hint@X`, `c` is the
only such hint for `(c.package, X)`, some target of the diff graph has
package `c.package` and name `X`, `c`'s rule type is followed, and the
depth budget is at least 2, then the reverse-edge index maps `c`'s label
to a target named `X` in `c.package`, and seeding `c` as the sole
immediate recursive change makes that target appear in layer 1 of
`recursive_target_changes`. -/
theorem C7_amended (diff : Targets) (c : BuckTarget) (X : TargetName)
    (depth : Option Nat) (follow : RuleType → Bool)
    (hmem : c ∈ Targets.targetsOf diff)
    (hshort : RuleType.short c.rule_type = "ci_hint".data)
    (hname : c.name = "ci_hint@".data ++ X)
    (huniq : ∀ t ∈ Targets.targetsOf diff,
      RuleType.short t.rule_type = "ci_hint".data →
      hint_applies_to t = some (c.package, X) →
      BuckTarget.label t = BuckTarget.label c)
    (hexists : ∃ u ∈ Targets.targetsOf diff,
      u.package = c.package ∧ u.name = X)
    (hfollow : follow c.rule_type = true)
    (hdepth : 2 ≤ depth.getD USIZE_MAX) :
    (∃ u, u.package = c.package ∧ u.name = X
      ∧ u ∈ TargetMap.get (buildRdeps diff) (BuckTarget.label c))
    ∧ ∃ layer,
      (recursive_target_changes diff ⟨[c], []⟩ depth follow)[1]? = some layer
      ∧ ∃ u ∈ layer, BuckTarget.labelKey u = (c.package, X) := by
  have hha : hint_applies_to c = some (c.package, X) := by
    unfold hint_applies_to
    rw [hname, dropPre_append]
    rfl
  have hedge : ∃ u, u.package = c.package ∧ u.name = X
      ∧ (RdepKey.lbl (BuckTarget.label c), u) ∈ (buildRdeps diff).entries := by
    simp only [buildRdeps]
    apply fillHints_edge
    · apply buildFold_hints_final c.package X (BuckTarget.label c) _ huniq
      exact Or.inr ⟨c, hmem, hshort, hha⟩
    · exact hexists
  obtain ⟨u, hu1, hu2, hue⟩ := hedge
  have huget : u ∈ TargetMap.get (buildRdeps diff) (BuckTarget.label c) :=
    mem_get_of_entry _ _ _ hue
  refine ⟨⟨u, hu1, hu2, huget⟩, ?_⟩
  have hukey : BuckTarget.labelKey u = (c.package, X) := by
    unfold BuckTarget.labelKey
    rw [hu1, hu2]
  have hXne : X ≠ c.name := by
    rw [hname]
    intro he
    have hlen := congrArg List.length he
    rw [List.length_append] at hlen
    have h8 : ("ci_hint@".data).length = 8 := rfl
    rw [h8] at hlen
    omega
  have hkne : (c.package, X) ≠ BuckTarget.labelKey c := by
    intro he
    exact hXne (congrArg Prod.snd he)
  have hdnone : doneLookup (initDone ⟨[c], []⟩) (c.package, X) = none := by
    have h1 : initDone ⟨[c], []⟩
        = doneInsert [] (BuckTarget.labelKey c) true := rfl
    rw [h1, doneLookup_insert_other _ _ _ _ hkne]
    rfl
  have hexp : explore (buildRdeps diff) follow ([c] ++ []) (initDone ⟨[c], []⟩)
      = (TargetMap.get (buildRdeps diff) (BuckTarget.label c)).foldl
          exploreStep ([], [], initDone ⟨[c], []⟩) := by
    show explore (buildRdeps diff) follow [c] (initDone ⟨[c], []⟩) = _
    simp only [explore, List.foldl_cons, List.foldl_nil, exploreItem,
      if_pos hfollow]
  obtain ⟨w, hwmem, hwkey⟩ := foldl_exploreStep_complete
    (TargetMap.get (buildRdeps diff) (BuckTarget.label c)) (c.package, X)
    [] [] (initDone ⟨[c], []⟩) (Or.inr ⟨hdnone, u, huget, hukey⟩)
  have hwE : w ∈ (explore (buildRdeps diff) follow ([c] ++ [])
      (initDone ⟨[c], []⟩)).1 := by
    rw [hexp]
    exact hwmem
  have hE1ne : (!(explore (buildRdeps diff) follow ([c] ++ [])
      (initDone ⟨[c], []⟩)).1.isEmpty) = true := by
    cases hE : (explore (buildRdeps diff) follow ([c] ++ [])
        (initDone ⟨[c], []⟩)).1 with
    | nil =>
      rw [hE] at hwE
      cases hwE
    | cons a b => rfl
  obtain ⟨f, hf⟩ : ∃ f, depth.getD USIZE_MAX = f + 2 :=
    ⟨depth.getD USIZE_MAX - 2, by omega⟩
  have hrun : recursive_target_changes diff ⟨[c], []⟩ depth follow
      = rloop (buildRdeps diff) follow (depth.getD USIZE_MAX) [c] []
          (initDone ⟨[c], []⟩) [] [] := rfl
  have hstep1 := rloop_step (buildRdeps diff) follow (f + 1) [c]
    (initDone ⟨[c], []⟩) [] [] rfl
  have hstep2 := rloop_step (buildRdeps diff) follow f
    (explore (buildRdeps diff) follow ([c] ++ []) (initDone ⟨[c], []⟩)).1
    (explore (buildRdeps diff) follow ([c] ++ []) (initDone ⟨[c], []⟩)).2.2
    (explore (buildRdeps diff) follow ([c] ++ []) (initDone ⟨[c], []⟩)).2.1
    (addResult [] [c]) hE1ne
  obtain ⟨suffix, hsuf⟩ := rloop_prefix (buildRdeps diff) follow f
    (explore (buildRdeps diff) follow
      ((explore (buildRdeps diff) follow ([c] ++ [])
          (initDone ⟨[c], []⟩)).1
        ++ (explore (buildRdeps diff) follow ([c] ++ [])
          (initDone ⟨[c], []⟩)).2.1)
      (explore (buildRdeps diff) follow ([c] ++ [])
        (initDone ⟨[c], []⟩)).2.2).1
    []
    (explore (buildRdeps diff) follow
      ((explore (buildRdeps diff) follow ([c] ++ [])
          (initDone ⟨[c], []⟩)).1
        ++ (explore (buildRdeps diff) follow ([c] ++ [])
          (initDone ⟨[c], []⟩)).2.1)
      (explore (buildRdeps diff) follow ([c] ++ [])
        (initDone ⟨[c], []⟩)).2.2).2.2
    (explore (buildRdeps diff) follow
      ((explore (buildRdeps diff) follow ([c] ++ [])
          (initDone ⟨[c], []⟩)).1
        ++ (explore (buildRdeps diff) follow ([c] ++ [])
          (initDone ⟨[c], []⟩)).2.1)
      (explore (buildRdeps diff) follow ([c] ++ [])
        (initDone ⟨[c], []⟩)).2.2).2.1
    (addResult (addResult [] [c])
      (explore (buildRdeps diff) follow ([c] ++ [])
        (initDone ⟨[c], []⟩)).1)
  refine ⟨sortByLabelKey ((explore (buildRdeps diff) follow ([c] ++ [])
      (initDone ⟨[c], []⟩)).1), ?_,
    w, (mem_sortByLabelKey w _).mpr hwE, hwkey⟩
  rw [hrun, hf, show f + 2 = f + 1 + 1 from rfl, hstep1, hstep2, hsuf]
  have hadd : addResult (addResult [] [c])
      (explore (buildRdeps diff) follow ([c] ++ []) (initDone ⟨[c], []⟩)).1
      = [sortByLabelKey [c],
         sortByLabelKey ((explore (buildRdeps diff) follow ([c] ++ [])
           (initDone ⟨[c], []⟩)).1)] := rfl
  rw [hadd, List.getElem?_append_left (by simp)]
  rfl

/-- C7 witness: the spec's own example — `ci_hint@baz` (rule type
`ci_hint`) and `baz` in package `foo//`, hint seeded, `depth = Some 3` —
puts `baz` in layer 1 and the edge in the index. -/
theorem C7_amended_witness :
    let tH : BuckTarget :=
      { name := "ci_hint@baz".data, package := "foo//".data
        package_values := ⟨[], []⟩
        rule_type := "prelude//rules.bzl:ci_hint".data
        oncall := none, deps := [], inputs := [], hash := "123".data
        labels := [], ci_srcs := [], ci_deps := [] }
    let tZ : BuckTarget :=
      { name := "baz".data, package := "foo//".data
        package_values := ⟨[], []⟩
        rule_type := "prelude//rules.bzl:cxx_library".data
        oncall := none, deps := [], inputs := [], hash := "123".data
        labels := [], ci_srcs := [], ci_deps := [] }
    (∃ u, u.package = tH.package ∧ u.name = "baz".data
      ∧ u ∈ TargetMap.get (buildRdeps [.target tH, .target tZ])
          (BuckTarget.label tH))
    ∧ ∃ layer,
      (recursive_target_changes [.target tH, .target tZ] ⟨[tH], []⟩ (some 3)
        (fun _ => true))[1]? = some layer
      ∧ ∃ u ∈ layer, BuckTarget.labelKey u = (tH.package, "baz".data) := by
  intro tH tZ
  exact C7_amended [.target tH, .target tZ] tH "baz".data (some 3)
    (fun _ => true) (by decide) (by decide) (by decide) (by decide)
    (by decide) rfl (by decide)

/- C9: check_errors. Helper lemmas. -/

theorem errMapFold_keys (l : List BuckError) :
    ∀ (m : List (Package × Str)) (x : Package × Str),
    x ∈ l.foldl (fun m e => errMapInsert m e.package e.error) m →
    (∃ b ∈ l, x.1 = b.package) ∨ x ∈ m := by
  induction l with
  | nil => intro m x hx; exact Or.inr hx
  | cons e es ih =>
    intro m x hx
    rw [List.foldl_cons] at hx
    rcases ih _ x hx with ⟨b, hb, hxb⟩ | h1
    · exact Or.inl ⟨b, List.mem_cons_of_mem _ hb, hxb⟩
    · unfold errMapInsert at h1
      rcases List.mem_append.mp h1 with h2 | h2
      · exact Or.inr (List.mem_of_mem_filter h2)
      · have h3 : x = (e.package, e.error) := by simpa using h2
        exact Or.inl ⟨e, List.mem_cons.mpr (Or.inl rfl), by rw [h3]⟩

theorem removeFold_nil (l : List BuckError) :
    ∀ (m : List (Package × Str)),
    (∀ x ∈ m, ∃ b ∈ l, x.1 = b.package) →
    l.foldl (fun m e => m.filter (fun x => !(x.1 == e.package))) m = [] := by
  induction l with
  | nil =>
    intro m hm
    cases m with
    | nil => rfl
    | cons a as =>
      obtain ⟨b, hb, _⟩ := hm a (List.mem_cons.mpr (Or.inl rfl))
      cases hb
  | cons e es ih =>
    intro m hm
    rw [List.foldl_cons]
    apply ih
    intro x hx
    have hxm : x ∈ m := (List.mem_filter.mp hx).1
    have hxne : (!(x.1 == e.package)) = true := (List.mem_filter.mp hx).2
    obtain ⟨b, hb, hxb⟩ := hm x hxm
    rcases List.mem_cons.mp hb with h1 | h1
    · exfalso
      rw [h1] at hxb
      rw [beq_iff_eq.mpr hxb] at hxne
      simp at hxne
    · exact ⟨b, h1, hxb⟩

theorem filterMap_const_none {α β : Type} (l : List α) :
    l.filterMap (fun _ => (none : Option β)) = [] := by
  induction l with
  | nil => rfl
  | cons a as ih => simp [List.filterMap_cons, ih]

theorem mem_contains_true (l : List Package) (a : Package) (h : a ∈ l) :
    l.contains a = true := by
  induction l with
  | nil => cases h
  | cons b bs ih =>
    rcases List.mem_cons.mp h with h1 | h1
    · simp [List.contains_cons, h1]
    · simp [List.contains_cons]
      exact Or.inr h1

theorem preFold_inv (tree : PkgResolver) :
    ∀ (paths : List CellPath) (acc : List ValidationError × List Package),
    acc.1.filterMap prePkgOf = acc.2 → acc.2.Nodup →
    (∀ q e2, ValidationError.packageFailed q e2 ∉ acc.1) →
    ((paths.foldl (preStep tree) acc).1.filterMap prePkgOf
        = (paths.foldl (preStep tree) acc).2)
    ∧ (paths.foldl (preStep tree) acc).2.Nodup
    ∧ (∀ q e2, ValidationError.packageFailed q e2
        ∉ (paths.foldl (preStep tree) acc).1) := by
  intro paths
  induction paths with
  | nil => intro acc h1 h2 h3; exact ⟨h1, h2, h3⟩
  | cons p ps ih =>
    intro acc h1 h2 h3
    rw [List.foldl_cons]
    cases hg : PkgResolver.getPop tree p with
    | none =>
      have hstep : preStep tree acc p = acc := by simp [preStep, hg]
      rw [hstep]
      exact ih acc h1 h2 h3
    | some pe =>
      have hstep0 : preStep tree acc p
          = if acc.2.contains pe.1 = true then acc
            else (acc.1 ++ [.preexistingPackageFailed pe.1 pe.2],
                  acc.2 ++ [pe.1]) := by
        unfold preStep
        rw [hg]
      by_cases hc : (acc.2.contains pe.1) = true
      · rw [hstep0, if_pos hc]
        exact ih acc h1 h2 h3
      · rw [hstep0, if_neg hc]
        have hnm : pe.1 ∉ acc.2 := fun hmem => hc (mem_contains_true _ _ hmem)
        apply ih
        · rw [List.filterMap_append, h1]
          rfl
        · have hnd : List.Nodup (pe.1 :: acc.2) :=
            List.nodup_cons.mpr ⟨hnm, h2⟩
          exact ((List.perm_append_singleton pe.1 acc.2).nodup_iff).mpr hnd
        · intro q e2 hq
          rcases List.mem_append.mp hq with hq1 | hq1
          · exact h3 q e2 hq1
          · simp at hq1

theorem check_errors_shape (base diff : Targets) (changes : Changes) :
    (∃ l : List (Package × Str), check_errors base diff changes
        = l.map (fun e => ValidationError.packageFailed e.1 e.2))
    ∨ ((∀ q e2, ValidationError.packageFailed q e2
          ∉ check_errors base diff changes)
        ∧ ((check_errors base diff changes).filterMap prePkgOf).Nodup) := by
  cases hd : diffErrsOf base diff with
  | nil =>
    have hck : check_errors base diff changes
        = ((Changes.cellPathsList changes).foldl (preStep (errsTreeOf diff))
            ([], [])).1 := by
      simp [check_errors, hd]
    right
    rw [hck]
    obtain ⟨ha, hb, hc⟩ := preFold_inv (errsTreeOf diff)
      (Changes.cellPathsList changes) ([], []) rfl List.nodup_nil
      (fun q e2 h => by cases h)
    refine ⟨hc, ?_⟩
    rw [ha]
    exact hb
  | cons e es =>
    left
    refine ⟨e :: es, ?_⟩
    simp [check_errors, hd]

/-- C9 counterexample: base and diff have identical error entries
(package `foo//bar`, message `boom`), but one changed path under the
broken package makes `check_errors` return a `PreexistingPackageFailed`
— the result is non-empty, contradicting the claim that identical error
entries alone force an empty result. -/
theorem C9_counterexample :
    let eB : BuckError := ⟨"foo//bar".data, "boom".data⟩
    let changes : Changes := ⟨[.modified "foo//bar/file.txt".data], []⟩
    Targets.errorsOf [.err eB] = Targets.errorsOf [.err eB]
    ∧ check_errors [.err eB] [.err eB] changes
      = [.preexistingPackageFailed "foo//bar".data "boom".data] := by
  intro eB changes
  refine ⟨rfl, by decide⟩

/-- C9 (amended): `check_errors` returns the empty list when base and
diff have identical error entries *and* the change list is empty; in
general, `PreexistingPackageFailed` diagnostics appear only when no new
`PackageFailed` error is reported (the two kinds never coexist in the
result), and at most one `PreexistingPackageFailed` is emitted per
distinct offending package. -/
theorem C9_amended (base diff : Targets) (changes : Changes) :
    ((Targets.errorsOf base = Targets.errorsOf diff) →
      Changes.cellPathsList changes = [] →
      check_errors base diff changes = [])
    ∧ ((∃ p er, ValidationError.preexistingPackageFailed p er
          ∈ check_errors base diff changes) →
       ∀ q e2, ValidationError.packageFailed q e2
          ∉ check_errors base diff changes)
    ∧ ((check_errors base diff changes).filterMap prePkgOf).Nodup := by
  refine ⟨?_, ?_, ?_⟩
  · intro herr hpaths
    have hsub : ∀ x ∈ (Targets.errorsOf diff).foldl
        (fun m e => errMapInsert m e.package e.error) [],
        ∃ b ∈ Targets.errorsOf base, x.1 = b.package := by
      intro x hx
      rcases errMapFold_keys (Targets.errorsOf diff) [] x hx with h1 | h1
      · rw [herr]
        exact h1
      · cases h1
    have h2 : diffErrsOf base diff = [] := removeFold_nil _ _ hsub
    simp [check_errors, h2, hpaths]
  · intro hpre q e2 hq
    rcases check_errors_shape base diff changes with ⟨l, hl⟩ | ⟨h2, _⟩
    · obtain ⟨p, er, hpmem⟩ := hpre
      rw [hl] at hpmem
      obtain ⟨x, _, hx⟩ := List.mem_map.mp hpmem
      exact ValidationError.noConfusion hx
    · exact h2 q e2 hq
  · rcases check_errors_shape base diff changes with ⟨l, hl⟩ | ⟨_, h3⟩
    · rw [hl, List.filterMap_map]
      have hfn : (prePkgOf ∘ fun (e : Package × Str) =>
          ValidationError.packageFailed e.1 e.2)
          = fun _ => (none : Option Package) := funext (fun e => rfl)
      rw [hfn, filterMap_const_none]
      exact List.nodup_nil
    · exact h3

/-- C9 witness: identical single-error base and diff with no changes
yield the empty result. -/
theorem C9_amended_witness :
    let eB : BuckError := ⟨"foo//bar".data, "boom".data⟩
    check_errors [.err eB] [.err eB] ⟨[], []⟩ = [] := by
  intro eB
  exact (C9_amended [.err eB] [.err eB] ⟨[], []⟩).1 rfl rfl
